import Mathlib

/-!
Verification development for the sankey repository (sankey_multi.py,
sankey_pipeline.py).  Python dicts are modelled as insertion-ordered
association lists, Python floats as rationals, Python strings as lists of
characters, and the functions of the source are translated definition by
definition.  Theorems at the end of the file settle the frozen claims.
-/

/-! ## Python dict model

A Python dict is an insertion-ordered association list: `dictSet` overwrites
the entry in place when the key is present (keeping insertion order, as
Python does) and appends otherwise; `dictGet?` returns the value of the
unique live entry.
-/

def dictGet? {α β : Type} [DecidableEq α] (m : List (α × β)) (k : α) : Option β :=
  (m.find? (fun p => p.1 = k)).map (·.2)

def dictSet {α β : Type} [DecidableEq α] (m : List (α × β)) (k : α) (v : β) : List (α × β) :=
  if m.any (fun p => p.1 = k) then m.map (fun p => if p.1 = k then (k, v) else p)
  else m ++ [(k, v)]

/-! ## Decimal digits, as Python str() renders integers -/

def digitChar : Nat → Char
  | 0 => '0'
  | 1 => '1'
  | 2 => '2'
  | 3 => '3'
  | 4 => '4'
  | 5 => '5'
  | 6 => '6'
  | 7 => '7'
  | 8 => '8'
  | 9 => '9'
  | _ => '?'

def natDigitsGo : Nat → Nat → List Char → List Char
  | 0, _, acc => acc
  | f + 1, n, acc =>
    if n < 10 then digitChar n :: acc
    else natDigitsGo f (n / 10) (digitChar (n % 10) :: acc)

/-- Decimal digit characters of a natural number, exactly as Python str(n)
renders a non-negative int. -/
def natDigits (n : Nat) : List Char := natDigitsGo (n + 1) n []

/-! ## Data model

Nodes and links are Python dicts in the source; the keys the code reads are
modelled as fields (`segment` holds an int or a segment-name string, both
optional), and the remaining link keys are an opaque metadata list carried
verbatim.  Strings are lists of characters, floats are rationals.
-/

structure Node where
  id : List Char
  label : Option (List Char) := none
  segment : Option (Int ⊕ List Char) := none
  value : Option ℚ := none
  dummy : Bool := false
  orig_link_index : Option Nat := none
deriving DecidableEq

structure Link where
  source : List Char
  target : List Char
  value : Option ℚ := none
  meta : List (List Char × List Char) := []
deriving DecidableEq

/-- sankey_multi._get_node_layer: integer layer of a node, or none. -/
def _get_node_layer (n : Node) (segments : Option (List (List Char))) : Option Int :=
  match n.segment with
  | none => none
  | some (Sum.inl i) => some i
  | some (Sum.inr s) =>
    match segments with
    | none => none
    | some segs => (segs.findIdx? (· = s)).map (fun i => (i : Int))

/-- Python str(i) for an int, as a character list. -/
def pyIntStr (i : Int) : List Char :=
  if i < 0 then '-' :: natDigits (-i).toNat else natDigits i.toNat

/-- The synthetic node id f"__dummy_l{src_layer}_{tgt_layer}_{next(dummy_counter)}". -/
def dummyId (sL tL : Int) (cnt : Nat) : List Char :=
  ['_', '_', 'd', 'u', 'm', 'm', 'y', '_', 'l'] ++
    pyIntStr sL ++ '_' :: pyIntStr tL ++ '_' :: natDigits cnt

/-- The dummy node dict built by split_long_links for one intermediate layer. -/
def mkDummy (sL tL : Int) (cnt : Nat) (layer : Int) (li : Nat) : Node :=
  { id := dummyId sL tL cnt, label := none, segment := some (Sum.inl layer),
    value := none, dummy := true, orig_link_index := some li }

/-- The layer_map dict built at the top of split_long_links: node id to layer,
skipping nodes whose layer is unknown. -/
def splitLayerDict (nodes : List Node) (segments : Option (List (List Char))) :
    List (List Char × Int) :=
  nodes.foldl (fun m n =>
    match _get_node_layer n segments with
    | none => m
    | some l => dictSet m n.id l) []

/-- The inner `for layer in range(src_layer + 1, tgt_layer)` loop of
split_long_links plus the final connector link: counts down the number of
remaining intermediate layers, threading the previous endpoint, the current
layer and the dummy counter. -/
def buildChain (l : Link) (li : Nat) (sL tL : Int) (val : ℚ) :
    Nat → List Char → Int → Nat → List Node × List Link × Nat
  | 0, prev, _, cnt =>
    ([], [{ source := prev, target := l.target, value := some val, meta := l.meta }], cnt)
  | k + 1, prev, layer, cnt =>
    let did := dummyId sL tL (cnt + 1)
    let res := buildChain l li sL tL val k did (layer + 1) (cnt + 1)
    (mkDummy sL tL (cnt + 1) layer li :: res.1,
      { source := prev, target := did, value := some val, meta := l.meta } :: res.2.1,
      res.2.2)

/-- The body of the `for li, link in enumerate(links)` loop of
split_long_links: the dummy nodes and links this one link contributes, plus
the new counter state. -/
def expandLink (nodeIds : List (List Char)) (lm : List (List Char × Int))
    (cnt li : Nat) (l : Link) : List Node × List Link × Nat :=
  if l.source ∈ nodeIds ∧ l.target ∈ nodeIds then
    match dictGet? lm l.source, dictGet? lm l.target with
    | some sL, some tL =>
      if tL = sL ∨ (tL - sL).natAbs = 1 then ([], [l], cnt)
      else if tL < sL then ([], [l], cnt)
      else buildChain l li sL tL (l.value.getD 0) (tL - sL - 1).toNat l.source (sL + 1) cnt
    | _, _ => ([], [l], cnt)
  else ([], [l], cnt)

/-- The full link loop of split_long_links. -/
def splitLoop (nodeIds : List (List Char)) (lm : List (List Char × Int)) :
    Nat → Nat → List Link → List Node × List Link × Nat
  | cnt, _, [] => ([], [], cnt)
  | cnt, li, l :: ls =>
    let d := expandLink nodeIds lm cnt li l
    let r := splitLoop nodeIds lm d.2.2 (li + 1) ls
    (d.1 ++ r.1, d.2.1 ++ r.2.1, r.2.2)

/-- sankey_multi.split_long_links. -/
def split_long_links (nodes : List Node) (links : List Link)
    (segments : Option (List (List Char)) := none) : List Node × List Link :=
  let lm := splitLayerDict nodes segments
  let ids := nodes.map (·.id)
  let r := splitLoop ids lm 0 0 links
  (nodes ++ r.1, r.2.1)

/-! ## Pass-through links and case analysis of the link loop -/

/-- The condition under which the split_long_links loop preserves a link
as-is: a missing endpoint, an unknown layer on either side, a same-layer or
adjacent-layer link, or a reversed link. -/
def linkPassThrough (nodeIds : List (List Char)) (lm : List (List Char × Int)) (l : Link) :
    Bool :=
  !(decide (l.source ∈ nodeIds) && decide (l.target ∈ nodeIds)) ||
  (match dictGet? lm l.source, dictGet? lm l.target with
   | some a, some b => decide (b = a) || decide ((b - a).natAbs = 1) || decide (b < a)
   | _, _ => true)

/-! ## sankey_pipeline.infer_layers -/

/-- The first pass of infer_layers: explicit integer segment, or a segment
name resolved in the segment list, or unknown. -/
def pipelineNodeLayer (n : Node) (segments : Option (List (List Char))) : Option Int :=
  match n.segment with
  | none => none
  | some (Sum.inl i) => some i
  | some (Sum.inr s) =>
    match segments with
    | none => none
    | some segs => (segs.findIdx? (· = s)).map (fun i => (i : Int))

/-- The layer_map dict after the first pass of infer_layers: every node id is
a key, unresolved nodes hold None. -/
def layerMapInit (nodes : List Node) (segments : Option (List (List Char))) :
    List (List Char × Option Int) :=
  nodes.foldl (fun m n => dictSet m n.id (pipelineNodeLayer n segments)) []

/-- The keys of the node_map dict, in first-insertion order (Python dict
comprehension keeps the first position of a repeated key). -/
def pyDictKeys (nodes : List Node) : List (List Char) :=
  nodes.foldl (fun acc n => if n.id ∈ acc then acc else acc ++ [n.id]) []

/-- The indeg defaultdict after the edge scan of infer_layers (restricted to
links whose two endpoints are known node ids); the source entry is only
materialised by setdefault, which never changes an existing value. -/
def indegInit (ids : List (List Char)) (links : List Link) : List (List Char × Int) :=
  links.foldl (fun m l =>
    if l.source ∈ ids ∧ l.target ∈ ids then
      let m1 := dictSet m l.target ((dictGet? m l.target).getD 0 + 1)
      dictSet m1 l.source ((dictGet? m1 l.source).getD 0)
    else m) []

/-- The queue-seeding loop of infer_layers: zero-in-degree nodes enter the
queue and unresolved ones among them get layer 0. -/
def seedPass (ids0 : List (List Char)) (indeg : List (List Char × Int))
    (lm : List (List Char × Option Int)) :
    List (List Char) × List (List Char × Option Int) :=
  ids0.foldl (fun st nid =>
    if (dictGet? indeg nid).getD 0 = 0 then
      (st.1 ++ [nid],
        if dictGet? st.2 nid = some none then dictSet st.2 nid (some 0) else st.2)
    else st) ([], lm)

/-- The Kahn-style while loop of infer_layers, with explicit fuel.  Each node
enters the queue at most once (a seed has in-degree 0, and a later node is
appended exactly when its decremented in-degree reaches 0, which can happen
only once since further decrements make it negative), so any fuel larger
than the number of node ids makes this equal to the Python loop.
Python's `layer_map.get(u, 0) or 0` maps both None and 0 to 0 and keeps any
other int, which is the same as defaulting the joined option to 0. -/
def topoLoop (adj : List Char → List (List Char)) :
    Nat → List (List Char) → List (List Char × Int) → List (List Char × Option Int) →
    List (List Char × Option Int)
  | 0, _, _, lm => lm
  | _ + 1, [], _, lm => lm
  | f + 1, u :: q, indeg, lm =>
    let uLayer : Int := match dictGet? lm u with
      | some (some x) => x
      | _ => 0
    let st := (adj u).foldl (fun (st : List (List Char) × List (List Char × Int) ×
        List (List Char × Option Int)) v =>
      let cur : Option Int := (dictGet? st.2.2 v).bind id
      let candidate := uLayer + 1
      let lm' := match cur with
        | none => dictSet st.2.2 v (some candidate)
        | some c => if candidate > c then dictSet st.2.2 v (some candidate) else st.2.2
      let newIndeg := (dictGet? st.2.1 v).getD 0 - 1
      let ind' := dictSet st.2.1 v newIndeg
      let q' := if newIndeg = 0 then st.1 ++ [v] else st.1
      (q', ind', lm')) (q, indeg, lm)
    topoLoop adj f st.1 st.2.1 st.2.2

/-- min(layer_map.values()) if layer_map else 0, over the filled dict. -/
def pyMinVals (F : List (List Char × Int)) : Int :=
  match F with
  | [] => 0
  | p :: rest => rest.foldl (fun m q => min m q.2) p.2

/-- sankey_pipeline.infer_layers. -/
def infer_layers (nodes : List Node) (links : List Link)
    (segments : Option (List (List Char)) := none) : List (List Char × Int) :=
  let lm0 := layerMapInit nodes segments
  if lm0.all (fun p => p.2.isSome) then
    lm0.map (fun p => (p.1, p.2.getD 0))
  else
    let ids := nodes.map (·.id)
    let adj := fun u => (links.filter (fun l =>
      decide (l.source ∈ ids) && decide (l.target ∈ ids) && decide (l.source = u))).map (·.target)
    let indeg0 := indegInit ids links
    let seeded := seedPass (pyDictKeys nodes) indeg0 lm0
    let lm1 := topoLoop adj (nodes.length + 1) seeded.1 indeg0 seeded.2
    let filled := lm1.map (fun p => (p.1, p.2.getD 0))
    let minLayer : Int := pyMinVals filled
    if minLayer = 0 then filled else filled.map (fun p => (p.1, p.2 - minLayer))

/-! ## sankey_pipeline.compute_node_values -/

/-- sankey_pipeline.compute_node_values: the two defaultdict sums accumulated
over the links (independent dicts, so the single Python loop is two folds),
then per node the max of incoming sum, outgoing sum and declared value. -/
def compute_node_values (nodes : List Node) (links : List Link) : List (List Char × ℚ) :=
  let out_sum := links.foldl (fun m l =>
    dictSet m l.source ((dictGet? m l.source).getD 0 + l.value.getD 0)) []
  let in_sum := links.foldl (fun m l =>
    dictSet m l.target ((dictGet? m l.target).getD 0 + l.value.getD 0)) []
  nodes.foldl (fun vals n =>
    dictSet vals n.id (max ((dictGet? in_sum n.id).getD 0)
      (max ((dictGet? out_sum n.id).getD 0) (n.value.getD 0)))) []

/-! ## sankey_pipeline.barycenter_ordering -/

/-- Stable insertion sort: an element goes in front of the first element it
compares ≤ to, so elements with equal keys keep their original order, as
Python's stable list.sort does. -/
def insertSorted {α : Type} (le : α → α → Bool) (x : α) : List α → List α
  | [] => [x]
  | y :: ys => if le x y then x :: y :: ys else y :: insertSorted le x ys

def isort {α : Type} (le : α → α → Bool) : List α → List α
  | [] => []
  | x :: xs => insertSorted le x (isort le xs)

/-- The neighbour-position scan of barycenter_ordering: walk the order dict
in insertion order and return the index of nb in the first layer list that
contains it. -/
def findPos (order : List (Int × List (List Char))) (nb : List Char) : Option Nat :=
  order.findSome? (fun p => p.2.findIdx? (· = nb))

/-- The barycenter weight of one node: mean position of the neighbours that
can be located, or None when no neighbour exists or none can be located. -/
def baryWeights (order : List (Int × List (List Char))) (neighbors : List (List Char)) :
    Option ℚ :=
  let sc := neighbors.foldl (fun (sc : ℚ × Nat) nb =>
    match findPos order nb with
    | some pos => (sc.1 + pos, sc.2 + 1)
    | none => sc) (0, 0)
  if sc.2 = 0 then none else some (sc.1 / sc.2)

/-- The inner barycenter(layer_idx, upward) routine: recompute the layer's
order from the weights, sorted ascending, the weightless nodes after all
weighted ones, both groups keeping their relative order. -/
def baryStep (preds succs : List Char → List (List Char))
    (order : List (Int × List (List Char))) (li : Int) (upward : Bool) :
    List (Int × List (List Char)) :=
  let ids := (dictGet? order li).getD []
  let withB := ids.map (fun nid =>
    (nid, baryWeights order (if upward then preds nid else succs nid)))
  let has := withB.filter (fun p => p.2.isSome)
  let nothas := withB.filter (fun p => !p.2.isSome)
  let sorted := isort (fun p q => decide (p.2.getD 0 ≤ q.2.getD 0)) has
  dictSet order li (sorted.map (·.1) ++ nothas.map (·.1))

/-- The iteration loop of barycenter_ordering: one downward sweep over all
layers but the first, then one upward sweep over all layers but the last. -/
def barySweeps (preds succs : List Char → List (List Char)) (layerIndices : List Int) :
    Nat → List (Int × List (List Char)) → List (Int × List (List Char))
  | 0, order => order
  | it + 1, order =>
    let o1 := (layerIndices.drop 1).foldl (fun o li => baryStep preds succs o li true) order
    let o2 := (layerIndices.dropLast.reverse).foldl
      (fun o li => baryStep preds succs o li false) o1
    barySweeps preds succs layerIndices it o2

/-- sankey_pipeline.barycenter_ordering. -/
def barycenter_ordering (layers : List (Int × List Node)) (links : List Link)
    (iterations : Nat := 1) : List (Int × List (List Char)) :=
  let preds := fun t => (links.filter (fun l => decide (l.target = t))).map (·.source)
  let succs := fun s => (links.filter (fun l => decide (l.source = s))).map (·.target)
  let order0 := layers.foldl (fun m p => dictSet m p.1 (p.2.map (·.id))) []
  let layerIndices := isort (fun a b => decide (a ≤ b)) (order0.map (·.1))
  barySweeps preds succs layerIndices iterations order0

/-! ## sankey_pipeline.compute_positions -/

/-- The per-layer stacking loop of compute_positions.  Python raises
ZeroDivisionError at `(v / total_val)` when a layer's ordered ids are
non-empty but their values sum to zero, which the Except models; x is
`layer_xs.get(li, 20)`, identical for every node of the layer. -/
def positionsLoop (ordering : List (Int × List (List Char)))
    (node_values : List (List Char × ℚ)) (layer_xs : List (Int × ℚ))
    (height node_width node_padding : ℚ) :
    List (Int × List Node) →
    List (List Char × (ℚ × ℚ)) × List (List Char × (ℚ × ℚ)) →
    Except String (List (List Char × (ℚ × ℚ)) × List (List Char × (ℚ × ℚ)))
  | [], acc => .ok acc
  | (li, nodes_in_layer) :: rest, acc =>
    let ordered_ids := (dictGet? ordering li).getD (nodes_in_layer.map (·.id))
    let vals := ordered_ids.map (fun nid => (dictGet? node_values nid).getD 1)
    let total_val : ℚ := if vals = [] then 1 else vals.sum
    if vals ≠ [] ∧ total_val = 0 then .error "float division by zero"
    else
      let avail_height := height - 40
      let min_node_h : ℚ := 6
      let raw_heights := vals.map (fun v =>
        max min_node_h ((v / total_val) * (avail_height * (3 / 5))))
      let x := (dictGet? layer_xs li).getD 20
      let st := (ordered_ids.zip raw_heights).foldl
        (fun (st : (List (List Char × (ℚ × ℚ)) × List (List Char × (ℚ × ℚ))) × ℚ) p =>
          ((dictSet st.1.1 p.1 (x, st.2 + p.2 / 2),
            dictSet st.1.2 p.1 (node_width, p.2)),
           st.2 + p.2 + node_padding)) (acc, 20)
      positionsLoop ordering node_values layer_xs height node_width node_padding rest st.1

/-- sankey_pipeline.compute_positions. -/
def compute_positions (layers : List (Int × List Node))
    (ordering : List (Int × List (List Char))) (node_values : List (List Char × ℚ))
    (width : ℚ := 800) (height : ℚ := 600) (node_width : ℚ := 20)
    (layer_padding : ℚ := 100) (node_padding : ℚ := 8) :
    Except String (List (List Char × (ℚ × ℚ)) × List (List Char × (ℚ × ℚ))) :=
  let num_layers : Int := match layers with
    | [] => 1
    | p :: rest => rest.foldl (fun m q => max m q.1) p.1 + 1
  let total_width := width - 40
  let layer_xs : List (Int × ℚ) :=
    if num_layers > 1 then
      (List.range num_layers.toNat).map (fun i =>
        ((i : Int), 20 + (i : ℚ) * (total_width / ((num_layers : ℚ) - 1))))
    else [(0, width / 2)]
  positionsLoop ordering node_values layer_xs height node_width node_padding layers ([], [])

/-! ## sankey_pipeline._compute_link_thicknesses -/

/-- The sum_out defaultdict of _compute_link_thicknesses. -/
def sumOutDict (links : List Link) : List (List Char × ℚ) :=
  links.foldl (fun m l => dictSet m l.source ((dictGet? m l.source).getD 0 + l.value.getD 0)) []

/-- The sum_in defaultdict of _compute_link_thicknesses. -/
def sumInDict (links : List Link) : List (List Char × ℚ) :=
  links.foldl (fun m l => dictSet m l.target ((dictGet? m l.target).getD 0 + l.value.getD 0)) []

/-- The scale_out dict of _compute_link_thicknesses: only nodes with a
positive outgoing sum get an entry. -/
def scaleOutDict (links : List Link) (sizes : List (List Char × (ℚ × ℚ))) (factor : ℚ) :
    List (List Char × ℚ) :=
  sizes.foldl (fun m p =>
    if (dictGet? (sumOutDict links) p.1).getD 0 > 0 then
      dictSet m p.1 ((p.2.2 * factor) / (dictGet? (sumOutDict links) p.1).getD 0)
    else m) []

/-- The scale_in dict of _compute_link_thicknesses. -/
def scaleInDict (links : List Link) (sizes : List (List Char × (ℚ × ℚ))) (factor : ℚ) :
    List (List Char × ℚ) :=
  sizes.foldl (fun m p =>
    if (dictGet? (sumInDict links) p.1).getD 0 > 0 then
      dictSet m p.1 ((p.2.2 * factor) / (dictGet? (sumInDict links) p.1).getD 0)
    else m) []

/-- The global default scale of _compute_link_thicknesses: derived from the
median node height (40 when indexing the empty sizes list raises IndexError)
and the largest link value. -/
def defaultScale (links : List Link) (sizes : List (List Char × (ℚ × ℚ))) (factor : ℚ) : ℚ :=
  let sortedHs := isort (fun a b => decide (a ≤ b)) (sizes.map (fun p => p.2.2))
  let median_h : ℚ := sortedHs.getD (sizes.length / 2) 40
  let maxVal : ℚ := match links.map (fun l => l.value.getD 0) with
    | [] => 1
    | v :: vs => vs.foldl max v
  (median_h * factor) / max 1 maxVal

/-- The per-link scale of _compute_link_thicknesses: the average of the two
side scales, one side alone when only it exists, or the default scale. -/
def linkScale (links : List Link) (sizes : List (List Char × (ℚ × ℚ))) (factor : ℚ)
    (l : Link) : ℚ :=
  match dictGet? (scaleOutDict links sizes factor) l.source,
      dictGet? (scaleInDict links sizes factor) l.target with
  | some s1, some s2 => (s1 + s2) / 2
  | some s1, none => s1
  | none, some s2 => s2
  | none, none => defaultScale links sizes factor

/-- sankey_pipeline._compute_link_thicknesses: one thickness per link index,
proportional to the link value through the per-link scale and floored at
min_thickness. -/
def _compute_link_thicknesses (links : List Link) (sizes : List (List Char × (ℚ × ℚ)))
    (factor : ℚ := 1) (min_thickness : ℚ := 1) : List (Nat × ℚ) :=
  if links = [] then []
  else links.enum.map (fun p =>
    (p.1, max min_thickness (p.2.value.getD 0 * linkScale links sizes factor p.2)))

/-! ## Declarative per-node link sums (the spec's phrasing of the sums) -/

def outgoingSum (links : List Link) (nid : List Char) : ℚ :=
  ((links.filter (fun l => decide (l.source = nid))).map (fun l => l.value.getD 0)).sum

def incomingSum (links : List Link) (nid : List Char) : ℚ :=
  ((links.filter (fun l => decide (l.target = nid))).map (fun l => l.value.getD 0)).sum

theorem dictGet?_dictSet_self {α β : Type} [DecidableEq α] (m : List (α × β)) (k : α) (v : β) :
    dictGet? (dictSet m k v) k = some v := by
  unfold dictSet dictGet?
  split
  · rename_i h
    induction m with
    | nil => simp at h
    | cons p rest ih =>
      by_cases hp : p.1 = k
      · simp only [List.map_cons, if_pos hp]
        rw [List.find?_cons_of_pos _ (by simp)]
        rfl
      · have h' : (rest.any fun q => decide (q.1 = k)) = true := by
          simp only [List.any_cons, Bool.or_eq_true, decide_eq_true_eq] at h
          rcases h with h | h
          · exact absurd h hp
          · exact h
        simp only [List.map_cons, if_neg hp]
        rw [List.find?_cons_of_neg _ (by simp [hp])]
        exact ih h'
  · rename_i h
    induction m with
    | nil => simp [List.find?_cons_of_pos]
    | cons p rest ih =>
      have hp : ¬ p.1 = k := fun hc => h (by simp [hc])
      have h' : ¬ (rest.any fun q => decide (q.1 = k)) = true := fun hc => h (by simp [hc])
      simp only [List.cons_append]
      rw [List.find?_cons_of_neg _ (by simp [hp])]
      exact ih h'

theorem dictGet?_dictSet_ne {α β : Type} [DecidableEq α] (m : List (α × β)) (k k' : α) (v : β)
    (h : k' ≠ k) : dictGet? (dictSet m k v) k' = dictGet? m k' := by
  unfold dictSet dictGet?
  split
  · rename_i hany
    clear hany
    induction m with
    | nil => simp
    | cons p rest ih =>
      by_cases hp : p.1 = k
      · simp only [List.map_cons, if_pos hp]
        rw [List.find?_cons_of_neg _ (by simp [Ne.symm h]),
          List.find?_cons_of_neg _ (by simp [hp, Ne.symm h])]
        exact ih
      · simp only [List.map_cons, if_neg hp]
        by_cases hk' : p.1 = k'
        · rw [List.find?_cons_of_pos _ (by simp [hk']),
            List.find?_cons_of_pos _ (by simp [hk'])]
        · rw [List.find?_cons_of_neg _ (by simp [hk']),
            List.find?_cons_of_neg _ (by simp [hk'])]
          exact ih
  · rename_i hany
    clear hany
    induction m with
    | nil =>
      simp only [List.nil_append]
      rw [List.find?_cons_of_neg _ (by simp [Ne.symm h])]
    | cons p rest ih =>
      simp only [List.cons_append]
      by_cases hk' : p.1 = k'
      · rw [List.find?_cons_of_pos _ (by simp [hk']),
          List.find?_cons_of_pos _ (by simp [hk'])]
      · rw [List.find?_cons_of_neg _ (by simp [hk']),
          List.find?_cons_of_neg _ (by simp [hk'])]
        exact ih

theorem dictSet_ne_nil {α β : Type} [DecidableEq α] (m : List (α × β)) (k : α) (v : β) :
    dictSet m k v ≠ [] := by
  unfold dictSet
  split
  · rename_i h
    cases m with
    | nil => simp at h
    | cons p rest => simp
  · cases m <;> simp

theorem natDigitsGo_append (f : Nat) : ∀ (n : Nat) (acc : List Char),
    natDigitsGo f n acc = natDigitsGo f n [] ++ acc := by
  induction f with
  | zero => intro n acc; simp [natDigitsGo]
  | succ f ih =>
    intro n acc
    by_cases h : n < 10
    · simp [natDigitsGo, h]
    · simp only [natDigitsGo, if_neg h]
      rw [ih (n / 10) (digitChar (n % 10) :: acc), ih (n / 10) [digitChar (n % 10)]]
      simp

theorem natDigitsGo_fuel : ∀ (n f : Nat), n < f → natDigitsGo f n [] = natDigits n := by
  intro n
  induction n using Nat.strong_induction_on with
  | _ n ih =>
    intro f hf
    match f, hf with
    | f + 1, hf =>
      by_cases h10 : n < 10
      · simp [natDigitsGo, natDigits, h10]
      · have hdiv : n / 10 < n := Nat.div_lt_self (by omega) (by omega)
        have h1 : natDigitsGo (f + 1) n [] = natDigitsGo f (n / 10) [digitChar (n % 10)] := by
          simp [natDigitsGo, h10]
        have h2 : natDigits n = natDigitsGo n (n / 10) [digitChar (n % 10)] := by
          simp [natDigits, natDigitsGo, h10]
        have e1 : natDigitsGo f (n / 10) [digitChar (n % 10)] =
            natDigits (n / 10) ++ [digitChar (n % 10)] := by
          rw [natDigitsGo_append, ih (n / 10) hdiv f (by omega)]
        have e2 : natDigitsGo n (n / 10) [digitChar (n % 10)] =
            natDigits (n / 10) ++ [digitChar (n % 10)] := by
          rw [natDigitsGo_append, ih (n / 10) hdiv n hdiv]
        rw [h1, h2, e1, e2]

theorem natDigits_eq (n : Nat) :
    natDigits n = if n < 10 then [digitChar n]
      else natDigits (n / 10) ++ [digitChar (n % 10)] := by
  by_cases h : n < 10
  · simp [natDigits, natDigitsGo, h]
  · have hdiv : n / 10 < n := Nat.div_lt_self (by omega) (by omega)
    have : natDigits n = natDigitsGo n (n / 10) [digitChar (n % 10)] := by
      simp [natDigits, natDigitsGo, h]
    rw [this, natDigitsGo_append, natDigitsGo_fuel _ _ hdiv]
    simp [h]

theorem natDigits_chars : ∀ (n : Nat), ∀ c ∈ natDigits n,
    c ∈ ['0', '1', '2', '3', '4', '5', '6', '7', '8', '9'] := by
  intro n
  induction n using Nat.strong_induction_on with
  | _ n ih =>
    intro c hc
    rw [natDigits_eq] at hc
    by_cases h : n < 10
    · rw [if_pos h] at hc
      simp only [List.mem_singleton] at hc
      subst hc
      interval_cases n <;> simp [digitChar]
    · rw [if_neg h] at hc
      have hdiv : n / 10 < n := Nat.div_lt_self (by omega) (by omega)
      rcases List.mem_append.mp hc with h1 | h1
      · exact ih (n / 10) hdiv c h1
      · simp only [List.mem_singleton] at h1
        subst h1
        have : n % 10 < 10 := Nat.mod_lt _ (by omega)
        interval_cases h : n % 10 <;> simp [digitChar]

theorem natDigits_ne_nil (n : Nat) : natDigits n ≠ [] := by
  rw [natDigits_eq]
  split <;> simp

theorem digitChar_inj : ∀ a < 10, ∀ b < 10, digitChar a = digitChar b → a = b := by decide

theorem natDigits_inj : ∀ (n m : Nat), natDigits n = natDigits m → n = m := by
  intro n
  induction n using Nat.strong_induction_on with
  | _ n ih =>
    intro m h
    rw [natDigits_eq n, natDigits_eq m] at h
    by_cases hn : n < 10 <;> by_cases hm : m < 10
    · rw [if_pos hn, if_pos hm] at h
      simp only [List.cons.injEq, and_true] at h
      exact digitChar_inj n hn m hm h
    · rw [if_pos hn, if_neg hm] at h
      have := congrArg List.length h
      simp at this
      exact absurd this (natDigits_ne_nil _)
    · rw [if_neg hn, if_pos hm] at h
      have := congrArg List.length h
      simp at this
      exact absurd this (natDigits_ne_nil _)
    · rw [if_neg hn, if_neg hm] at h
      have hlen : ([digitChar (n % 10)] : List Char).length =
          ([digitChar (m % 10)] : List Char).length := rfl
      obtain ⟨h1, h2⟩ := List.append_inj' h hlen
      have hdiv : n / 10 < n := Nat.div_lt_self (by omega) (by omega)
      have e1 : n / 10 = m / 10 := ih (n / 10) hdiv (m / 10) h1
      simp only [List.cons.injEq, and_true] at h2
      have e2 : n % 10 = m % 10 :=
        digitChar_inj (n % 10) (Nat.mod_lt _ (by omega)) (m % 10) (Nat.mod_lt _ (by omega)) h2
      omega

theorem sep_split {p₁ p₂ r₁ r₂ : List Char} (c : Char)
    (h : p₁ ++ c :: r₁ = p₂ ++ c :: r₂) (h1 : c ∉ p₁) (h2 : c ∉ p₂) :
    p₁ = p₂ ∧ r₁ = r₂ := by
  induction p₁ generalizing p₂ with
  | nil =>
    cases p₂ with
    | nil => simp_all
    | cons y ys =>
      simp only [List.nil_append, List.cons_append, List.cons.injEq] at h
      exact absurd (h.1 ▸ List.mem_cons_self y ys) h2
  | cons x xs ih =>
    cases p₂ with
    | nil =>
      simp only [List.nil_append, List.cons_append, List.cons.injEq] at h
      exact absurd (h.1.symm ▸ List.mem_cons_self x xs) h1
    | cons y ys =>
      simp only [List.cons_append, List.cons.injEq] at h
      have hx : c ∉ xs := fun hc => h1 (List.mem_cons_of_mem x hc)
      have hy : c ∉ ys := fun hc => h2 (List.mem_cons_of_mem y hc)
      obtain ⟨e1, e2⟩ := ih h.2 hx hy
      exact ⟨by rw [h.1, e1], e2⟩

/-! ## Facts about synthetic ids -/

theorem natDigits_no_underscore (n : Nat) : '_' ∉ natDigits n := by
  intro h
  exact absurd (natDigits_chars n '_' h) (by decide)

theorem reverse_sep (u v : List Char) (c : Char) :
    (u ++ c :: v).reverse = v.reverse ++ c :: u.reverse := by
  simp [List.reverse_append, List.append_assoc]

theorem sep_split_last {u₁ u₂ v₁ v₂ : List Char} (c : Char)
    (h : u₁ ++ c :: v₁ = u₂ ++ c :: v₂) (h1 : c ∉ v₁) (h2 : c ∉ v₂) :
    u₁ = u₂ ∧ v₁ = v₂ := by
  have hr := congrArg List.reverse h
  rw [reverse_sep, reverse_sep] at hr
  obtain ⟨e1, e2⟩ := sep_split c hr (by simpa using h1) (by simpa using h2)
  constructor
  · simpa using congrArg List.reverse e2
  · simpa using congrArg List.reverse e1

theorem dummyId_decomp (a b : Int) (c : Nat) :
    dummyId a b c =
      (['_', '_', 'd', 'u', 'm', 'm', 'y', '_', 'l'] ++ pyIntStr a ++ '_' :: pyIntStr b) ++
        '_' :: natDigits c := by
  simp [dummyId, List.append_assoc]

theorem dummyId_cnt_inj {a b a' b' : Int} {c c' : Nat}
    (h : dummyId a b c = dummyId a' b' c') : c = c' := by
  rw [dummyId_decomp, dummyId_decomp] at h
  obtain ⟨-, e⟩ := sep_split_last '_' h (natDigits_no_underscore c) (natDigits_no_underscore c')
  exact natDigits_inj _ _ e

theorem dummyId_take9 (a b : Int) (c : Nat) :
    (dummyId a b c).take 9 = ['_', '_', 'd', 'u', 'm', 'm', 'y', '_', 'l'] := by
  rw [dummyId]
  have h9 : (9 : Nat) = (['_', '_', 'd', 'u', 'm', 'm', 'y', '_', 'l'] : List Char).length := rfl
  rw [h9]
  exact List.take_left _ _

/-- An id whose first nine characters are not the dummy marker is never a
synthetic id. -/
theorem ne_dummyId_of_take9 {s : List Char}
    (h : s.take 9 ≠ ['_', '_', 'd', 'u', 'm', 'm', 'y', '_', 'l'])
    (a b : Int) (c : Nat) : s ≠ dummyId a b c := by
  intro he
  exact h (he ▸ dummyId_take9 a b c)

/-! ## Closed form of the splitting chain -/

theorem buildChain_eq (l : Link) (li : Nat) (sL tL : Int) (val : ℚ) :
    ∀ (k : Nat) (prev : List Char) (layer : Int) (cnt : Nat),
    buildChain l li sL tL val k prev layer cnt =
      ((List.range k).map (fun j => mkDummy sL tL (cnt + 1 + j) (layer + j) li),
       (List.range (k + 1)).map (fun j =>
         { source := if j = 0 then prev else dummyId sL tL (cnt + j),
           target := if j = k then l.target else dummyId sL tL (cnt + j + 1),
           value := some val, meta := l.meta }),
       cnt + k) := by
  intro k
  induction k with
  | zero =>
    intro prev layer cnt
    simp [buildChain, List.range_succ]
  | succ k ih =>
    intro prev layer cnt
    simp only [buildChain, ih, Prod.mk.injEq]
    refine ⟨?_, ?_, by omega⟩
    · rw [List.range_succ_eq_map, List.map_cons, List.map_map]
      refine List.cons_eq_cons.mpr ⟨?_, ?_⟩
      · norm_num
      · apply List.map_congr_left
        intro j hj
        simp only [Function.comp]
        have e1 : cnt + 1 + 1 + j = cnt + 1 + (j + 1) := by omega
        have e2 : layer + 1 + (j : Int) = layer + ((j : Nat) + 1 : Nat) := by push_cast; ring
        rw [e1, e2]
    · conv_rhs => rw [List.range_succ_eq_map, List.map_cons, List.map_map]
      refine List.cons_eq_cons.mpr ⟨?_, ?_⟩
      · norm_num
      · apply List.map_congr_left
        intro j hj
        simp only [Function.comp, Link.mk.injEq]
        refine ⟨?_, ?_, trivial, trivial⟩
        · by_cases hj0 : j = 0
          · subst hj0
            norm_num
          · rw [if_neg hj0, if_neg (by omega : ¬ j + 1 = 0)]
            congr 1
            omega
        · by_cases hjk : j = k
          · rw [if_pos hjk, if_pos (by omega : j + 1 = k + 1)]
          · rw [if_neg hjk, if_neg (by omega : ¬ j + 1 = k + 1)]
            congr 1
            omega

theorem expandLink_pass (nodeIds : List (List Char)) (lm : List (List Char × Int))
    (cnt li : Nat) (l : Link) (h : linkPassThrough nodeIds lm l = true) :
    expandLink nodeIds lm cnt li l = ([], [l], cnt) := by
  unfold expandLink
  by_cases hmem : l.source ∈ nodeIds ∧ l.target ∈ nodeIds
  · rw [if_pos hmem]
    split
    · rename_i a b heq1 heq2
      simp [linkPassThrough, heq1, heq2, hmem.1, hmem.2] at h
      by_cases h1 : b = a ∨ (b - a).natAbs = 1
      · rw [if_pos h1]
      · rw [if_neg h1, if_pos (by tauto)]
    · rfl
  · rw [if_neg hmem]

theorem expandLink_cases (nodeIds : List (List Char)) (lm : List (List Char × Int))
    (cnt li : Nat) (l : Link) :
    expandLink nodeIds lm cnt li l = ([], [l], cnt) ∨
    ∃ sL tL, dictGet? lm l.source = some sL ∧ dictGet? lm l.target = some tL ∧
      l.source ∈ nodeIds ∧ l.target ∈ nodeIds ∧ sL + 1 < tL ∧
      expandLink nodeIds lm cnt li l =
        buildChain l li sL tL (l.value.getD 0) (tL - sL - 1).toNat l.source (sL + 1) cnt := by
  unfold expandLink
  by_cases hmem : l.source ∈ nodeIds ∧ l.target ∈ nodeIds
  · rw [if_pos hmem]
    split
    · rename_i a b heq1 heq2
      by_cases h1 : b = a ∨ (b - a).natAbs = 1
      · rw [if_pos h1]
        exact Or.inl rfl
      · rw [if_neg h1]
        by_cases h2 : b < a
        · rw [if_pos h2]
          exact Or.inl rfl
        · rw [if_neg h2]
          refine Or.inr ⟨a, b, heq1, heq2, hmem.1, hmem.2, by omega, rfl⟩
    · exact Or.inl rfl
  · rw [if_neg hmem]
    exact Or.inl rfl

theorem expandLink_split (nodeIds : List (List Char)) (lm : List (List Char × Int))
    (cnt li : Nat) (l : Link) (sL tL : Int) (k : Nat)
    (hmem : l.source ∈ nodeIds ∧ l.target ∈ nodeIds)
    (hs : dictGet? lm l.source = some sL) (ht : dictGet? lm l.target = some tL)
    (hk : tL = sL + k) (hk2 : 2 ≤ k) :
    expandLink nodeIds lm cnt li l =
      ((List.range (k - 1)).map (fun j => mkDummy sL tL (cnt + 1 + j) (sL + 1 + j) li),
       (List.range k).map (fun j =>
         { source := if j = 0 then l.source else dummyId sL tL (cnt + j),
           target := if j = k - 1 then l.target else dummyId sL tL (cnt + j + 1),
           value := some (l.value.getD 0), meta := l.meta }),
       cnt + (k - 1)) := by
  unfold expandLink
  rw [if_pos hmem]
  split
  · rename_i a b heq1 heq2
    rw [hs] at heq1
    rw [ht] at heq2
    injection heq1 with heq1
    injection heq2 with heq2
    subst heq1
    subst heq2
    rw [if_neg (by omega : ¬ (tL = sL ∨ (tL - sL).natAbs = 1)),
      if_neg (by omega : ¬ tL < sL)]
    have hkk : (tL - sL - 1).toNat = k - 1 := by omega
    rw [hkk, buildChain_eq]
    have hk1 : k - 1 + 1 = k := by omega
    rw [hk1]
  · rename_i hno
    exact absurd hs (by intro hc; exact hno sL tL hc ht)

/-! ## Dummy-node bookkeeping of the full link loop -/

theorem expandLink_dummies (nodeIds : List (List Char)) (lm : List (List Char × Int))
    (cnt li : Nat) (l : Link) :
    cnt ≤ (expandLink nodeIds lm cnt li l).2.2 ∧
    (∀ d ∈ (expandLink nodeIds lm cnt li l).1, ∃ a b c, d.id = dummyId a b c ∧
      cnt < c ∧ c ≤ (expandLink nodeIds lm cnt li l).2.2) ∧
    ((expandLink nodeIds lm cnt li l).1.map (·.id)).Nodup := by
  rcases expandLink_cases nodeIds lm cnt li l with h | ⟨sL, tL, _, _, _, _, _, h⟩
  · rw [h]
    simp
  · rw [h, buildChain_eq]
    refine ⟨by simp, ?_, ?_⟩
    · intro d hd
      simp only [List.mem_map, List.mem_range] at hd
      obtain ⟨j, hj, rfl⟩ := hd
      exact ⟨sL, tL, cnt + 1 + j, rfl, by omega, by simp; omega⟩
    · simp only [List.map_map]
      have : ((fun n => n.id) ∘ fun j => mkDummy sL tL (cnt + 1 + j) (sL + 1 + j) li) =
          fun j => dummyId sL tL (cnt + 1 + j) := rfl
      rw [this]
      refine List.Nodup.map ?_ (List.nodup_range _)
      intro j j' hjj
      have := dummyId_cnt_inj hjj
      omega

theorem splitLoop_dummies (nodeIds : List (List Char)) (lm : List (List Char × Int)) :
    ∀ (ls : List Link) (cnt li : Nat),
    cnt ≤ (splitLoop nodeIds lm cnt li ls).2.2 ∧
    (∀ d ∈ (splitLoop nodeIds lm cnt li ls).1, ∃ a b c, d.id = dummyId a b c ∧
      cnt < c ∧ c ≤ (splitLoop nodeIds lm cnt li ls).2.2) ∧
    ((splitLoop nodeIds lm cnt li ls).1.map (·.id)).Nodup := by
  intro ls
  induction ls with
  | nil =>
    intro cnt li
    simp [splitLoop]
  | cons x xs ih =>
    intro cnt li
    obtain ⟨hc1, hd1, hn1⟩ := expandLink_dummies nodeIds lm cnt li x
    obtain ⟨hc2, hd2, hn2⟩ := ih (expandLink nodeIds lm cnt li x).2.2 (li + 1)
    simp only [splitLoop]
    refine ⟨le_trans hc1 hc2, ?_, ?_⟩
    · intro d hd
      rcases List.mem_append.mp hd with hd | hd
      · obtain ⟨a, b, c, he, hlt, hle⟩ := hd1 d hd
        exact ⟨a, b, c, he, hlt, le_trans hle hc2⟩
      · obtain ⟨a, b, c, he, hlt, hle⟩ := hd2 d hd
        exact ⟨a, b, c, he, lt_of_le_of_lt hc1 hlt, hle⟩
    · rw [List.map_append]
      rw [List.nodup_append]
      refine ⟨hn1, hn2, ?_⟩
      intro s hs1 hs2
      simp only [List.mem_map] at hs1 hs2
      obtain ⟨d1, hd1m, rfl⟩ := hs1
      obtain ⟨d2, hd2m, he2⟩ := hs2
      obtain ⟨a, b, c, hid1, hlt1, hle1⟩ := hd1 d1 hd1m
      obtain ⟨a', b', c', hid2, hlt2, _⟩ := hd2 d2 hd2m
      have : dummyId a b c = dummyId a' b' c' := by rw [← hid1, ← he2, hid2]
      have := dummyId_cnt_inj this
      omega

theorem splitLoop_pass_mem (nodeIds : List (List Char)) (lm : List (List Char × Int)) :
    ∀ (ls : List Link) (cnt li : Nat) (l : Link),
    l ∈ ls → linkPassThrough nodeIds lm l = true →
    l ∈ (splitLoop nodeIds lm cnt li ls).2.1 := by
  intro ls
  induction ls with
  | nil =>
    intro cnt li l h
    simp at h
  | cons x xs ih =>
    intro cnt li l hmem hpass
    simp only [splitLoop]
    rcases List.mem_cons.mp hmem with rfl | hmem
    · rw [expandLink_pass _ _ _ _ _ hpass]
      exact List.mem_append_left _ (List.mem_singleton_self l)
    · exact List.mem_append_right _ (ih _ (li + 1) l hmem hpass)

/-! ## Generic lookup lemmas over dict-building folds -/

theorem dict_foldl_write_skip {α β γ : Type} [DecidableEq α] (key : γ → α) (val : γ → β) :
    ∀ (xs : List γ) (m : List (α × β)) (s : α), (∀ y ∈ xs, key y ≠ s) →
    dictGet? (xs.foldl (fun m y => dictSet m (key y) (val y)) m) s = dictGet? m s := by
  intro xs
  induction xs with
  | nil => intro m s _; rfl
  | cons x xs ih =>
    intro m s h
    rw [List.foldl_cons, ih _ s (fun y hy => h y (List.mem_cons_of_mem x hy)),
      dictGet?_dictSet_ne _ _ _ _ (Ne.symm (h x (List.mem_cons_self x xs)))]

theorem dict_foldl_write_lookup {α β γ : Type} [DecidableEq α] (key : γ → α) (val : γ → β) :
    ∀ (xs : List γ) (m : List (α × β)) (x : γ), x ∈ xs → (xs.map key).Nodup →
    dictGet? (xs.foldl (fun m y => dictSet m (key y) (val y)) m) (key x) = some (val x) := by
  intro xs
  induction xs with
  | nil =>
    intro m x hx
    simp at hx
  | cons y ys ih =>
    intro m x hx hnd
    rw [List.foldl_cons]
    simp only [List.map_cons, List.nodup_cons] at hnd
    rcases List.mem_cons.mp hx with rfl | hx'
    · rw [dict_foldl_write_skip key val ys _ (key x)
        (fun z hz hc => hnd.1 (hc ▸ List.mem_map_of_mem key hz))]
      exact dictGet?_dictSet_self _ _ _
    · exact ih _ x hx' hnd.2

theorem dict_foldl_condwrite_skip {α β γ : Type} [DecidableEq α] (key : γ → α) (val : γ → β)
    (c : γ → Prop) [DecidablePred c] :
    ∀ (xs : List γ) (m : List (α × β)) (s : α), (∀ y ∈ xs, key y ≠ s) →
    dictGet? (xs.foldl (fun m y => if c y then dictSet m (key y) (val y) else m) m) s =
      dictGet? m s := by
  intro xs
  induction xs with
  | nil => intro m s _; rfl
  | cons x xs ih =>
    intro m s h
    rw [List.foldl_cons, ih _ s (fun y hy => h y (List.mem_cons_of_mem x hy))]
    by_cases hc : c x
    · rw [if_pos hc, dictGet?_dictSet_ne _ _ _ _ (Ne.symm (h x (List.mem_cons_self x xs)))]
    · rw [if_neg hc]

theorem dict_foldl_condwrite_lookup {α β γ : Type} [DecidableEq α] (key : γ → α) (val : γ → β)
    (c : γ → Prop) [DecidablePred c] :
    ∀ (xs : List γ) (m : List (α × β)) (x : γ), x ∈ xs → (xs.map key).Nodup → c x →
    dictGet? (xs.foldl (fun m y => if c y then dictSet m (key y) (val y) else m) m) (key x) =
      some (val x) := by
  intro xs
  induction xs with
  | nil =>
    intro m x hx
    simp at hx
  | cons y ys ih =>
    intro m x hx hnd hc
    rw [List.foldl_cons]
    simp only [List.map_cons, List.nodup_cons] at hnd
    rcases List.mem_cons.mp hx with rfl | hx'
    · rw [dict_foldl_condwrite_skip key val c ys _ (key x)
        (fun z hz hcz => hnd.1 (hcz ▸ List.mem_map_of_mem key hz))]
      rw [if_pos hc]
      exact dictGet?_dictSet_self _ _ _
    · exact ih _ x hx' hnd.2 hc

theorem dict_foldl_optwrite_skip {α β γ : Type} [DecidableEq α] (key : γ → α)
    (w : γ → Option β) :
    ∀ (xs : List γ) (m : List (α × β)) (s : α), (∀ y ∈ xs, key y ≠ s) →
    dictGet? (xs.foldl (fun m y =>
      match w y with
      | none => m
      | some u => dictSet m (key y) u) m) s = dictGet? m s := by
  intro xs
  induction xs with
  | nil => intro m s _; rfl
  | cons x xs ih =>
    intro m s h
    rw [List.foldl_cons, ih _ s (fun y hy => h y (List.mem_cons_of_mem x hy))]
    cases hw : w x with
    | none => rfl
    | some u =>
      exact dictGet?_dictSet_ne _ _ _ _ (Ne.symm (h x (List.mem_cons_self x xs)))

theorem dict_foldl_optwrite_lookup {α β γ : Type} [DecidableEq α] (key : γ → α)
    (w : γ → Option β) :
    ∀ (xs : List γ) (m : List (α × β)) (x : γ) (v : β), x ∈ xs → (xs.map key).Nodup →
    w x = some v →
    dictGet? (xs.foldl (fun m y =>
      match w y with
      | none => m
      | some u => dictSet m (key y) u) m) (key x) = some v := by
  intro xs
  induction xs with
  | nil =>
    intro m x v hx
    simp at hx
  | cons y ys ih =>
    intro m x v hx hnd hw
    rw [List.foldl_cons]
    simp only [List.map_cons, List.nodup_cons] at hnd
    rcases List.mem_cons.mp hx with rfl | hx'
    · rw [dict_foldl_optwrite_skip key w ys _ (key x)
        (fun z hz hcz => hnd.1 (hcz ▸ List.mem_map_of_mem key hz))]
      rw [hw]
      exact dictGet?_dictSet_self _ _ _
    · exact ih _ x v hx' hnd.2 hw

theorem dict_foldl_accum_lookup {γ : Type} (key : γ → List Char) (val : γ → ℚ) :
    ∀ (xs : List γ) (m : List (List Char × ℚ)) (s : List Char),
    (dictGet? (xs.foldl (fun m y =>
        dictSet m (key y) ((dictGet? m (key y)).getD 0 + val y)) m) s).getD 0 =
      (dictGet? m s).getD 0 + ((xs.filter (fun y => decide (key y = s))).map val).sum := by
  intro xs
  induction xs with
  | nil =>
    intro m s
    simp
  | cons y ys ih =>
    intro m s
    rw [List.foldl_cons, ih]
    by_cases hk : key y = s
    · rw [List.filter_cons_of_pos (by simp [hk])]
      subst hk
      rw [dictGet?_dictSet_self]
      simp only [Option.getD_some, List.map_cons, List.sum_cons]
      ring
    · rw [List.filter_cons_of_neg (by simp [hk]),
        dictGet?_dictSet_ne _ _ _ _ (Ne.symm hk)]

theorem dictGet?_map_value {α β β' : Type} [DecidableEq α] (g : β → β') :
    ∀ (m : List (α × β)) (k : α),
    dictGet? (m.map (fun p => (p.1, g p.2))) k = (dictGet? m k).map g := by
  intro m k
  induction m with
  | nil => rfl
  | cons p rest ih =>
    unfold dictGet? at ih ⊢
    by_cases hp : p.1 = k
    · rw [List.map_cons, List.find?_cons_of_pos _ (by simp [hp]),
        List.find?_cons_of_pos _ (by simp [hp])]
      rfl
    · rw [List.map_cons, List.find?_cons_of_neg _ (by simp [hp]),
        List.find?_cons_of_neg _ (by simp [hp])]
      exact ih

theorem lookup_map_pairs {α β γ : Type} [DecidableEq α] (key : γ → α) (val : γ → β) :
    ∀ (xs : List γ) (x : γ), x ∈ xs → (xs.map key).Nodup →
    dictGet? (xs.map (fun y => (key y, val y))) (key x) = some (val x) := by
  intro xs
  induction xs with
  | nil =>
    intro x hx
    simp at hx
  | cons y ys ih =>
    intro x hx hnd
    simp only [List.map_cons, List.nodup_cons] at hnd
    rcases List.mem_cons.mp hx with rfl | hx'
    · unfold dictGet?
      rw [List.map_cons, List.find?_cons_of_pos _ (by simp)]
      rfl
    · unfold dictGet?
      rw [List.map_cons, List.find?_cons_of_neg _ ?hne]
      · exact ih x hx' hnd.2
      case hne =>
        simp only [decide_eq_true_eq]
        intro hc
        exact hnd.1 (hc ▸ List.mem_map_of_mem key hx')

/-! ## Permutation facts about the stable insertion sort -/

theorem insertSorted_perm {α : Type} (le : α → α → Bool) (x : α) :
    ∀ l : List α, (insertSorted le x l).Perm (x :: l) := by
  intro l
  induction l with
  | nil => exact List.Perm.refl _
  | cons y ys ih =>
    unfold insertSorted
    by_cases h : le x y
    · rw [if_pos h]
    · rw [if_neg h]
      exact (List.Perm.cons y ih).trans (List.Perm.swap x y ys)

theorem isort_perm {α : Type} (le : α → α → Bool) :
    ∀ l : List α, (isort le l).Perm l := by
  intro l
  induction l with
  | nil => exact List.Perm.refl _
  | cons x xs ih =>
    exact (insertSorted_perm le x (isort le xs)).trans (List.Perm.cons x ih)

/-! ## Folded minimum -/

theorem foldl_min_le_init : ∀ (xs : List Int) (x : Int), xs.foldl min x ≤ x := by
  intro xs
  induction xs with
  | nil => intro x; exact le_refl x
  | cons y ys ih =>
    intro x
    rw [List.foldl_cons]
    exact le_trans (ih (min x y)) (min_le_left x y)

theorem foldl_min_le_mem : ∀ (xs : List Int) (x v : Int), v ∈ xs → xs.foldl min x ≤ v := by
  intro xs
  induction xs with
  | nil =>
    intro x v hv
    simp at hv
  | cons y ys ih =>
    intro x v hv
    rw [List.foldl_cons]
    rcases List.mem_cons.mp hv with rfl | hv'
    · exact le_trans (foldl_min_le_init ys (min x v)) (min_le_right x v)
    · exact ih (min x y) v hv'

theorem foldl_min_mem : ∀ (xs : List Int) (x : Int), xs.foldl min x = x ∨ xs.foldl min x ∈ xs := by
  intro xs
  induction xs with
  | nil => intro x; exact Or.inl rfl
  | cons y ys ih =>
    intro x
    rw [List.foldl_cons]
    rcases ih (min x y) with h | h
    · rcases min_choice x y with hm | hm
      · exact Or.inl (h.trans hm)
      · rw [h, hm]
        exact Or.inr (List.mem_cons_self y ys)
    · exact Or.inr (List.mem_cons_of_mem y h)

/-- C10: compute_node_values returns, for every node, exactly the maximum of
the incoming link-value sum, the outgoing link-value sum, and the declared
value (0 when absent); in particular a node with no incident links but a
positive declared value gets that declared value. -/
theorem c10_node_value_is_max (nodes : List Node) (links : List Link)
    (hnd : (nodes.map (·.id)).Nodup) (n : Node) (hn : n ∈ nodes) :
    dictGet? (compute_node_values nodes links) n.id =
      some (max (incomingSum links n.id) (max (outgoingSum links n.id) (n.value.getD 0))) := by
  obtain ⟨OUT, hOUT⟩ : ∃ d, links.foldl (fun m l =>
      dictSet m l.source ((dictGet? m l.source).getD 0 + l.value.getD 0)) [] = d := ⟨_, rfl⟩
  obtain ⟨IN, hIN⟩ : ∃ d, links.foldl (fun m l =>
      dictSet m l.target ((dictGet? m l.target).getD 0 + l.value.getD 0)) [] = d := ⟨_, rfl⟩
  have h1 : (dictGet? OUT n.id).getD 0 = outgoingSum links n.id := by
    rw [← hOUT, dict_foldl_accum_lookup (fun l : Link => l.source) (fun l : Link => l.value.getD 0)]
    simp [outgoingSum, dictGet?]
  have h2 : (dictGet? IN n.id).getD 0 = incomingSum links n.id := by
    rw [← hIN, dict_foldl_accum_lookup (fun l : Link => l.target) (fun l : Link => l.value.getD 0)]
    simp [incomingSum, dictGet?]
  simp only [compute_node_values, hOUT, hIN]
  exact (dict_foldl_write_lookup (fun n : Node => n.id)
    (fun n : Node => max ((dictGet? IN n.id).getD 0)
      (max ((dictGet? OUT n.id).getD 0) (n.value.getD 0))) nodes [] n hn hnd).trans
    (by rw [h1, h2])

/-- C10 witness: a node with no links and declared value 5 is valued 5. -/
theorem c10_witness :
    ((([{ id := ['A'], value := some 5 }] : List Node).map (·.id)).Nodup ∧
      ({ id := ['A'], value := some 5 } : Node) ∈ ([{ id := ['A'], value := some 5 }] : List Node)) ∧
    dictGet? (compute_node_values [{ id := ['A'], value := some 5 }] []) ['A'] =
      some (max (incomingSum [] ['A'])
        (max (outgoingSum [] ['A']) ((some (5 : ℚ)).getD 0))) :=
  ⟨⟨by decide, by decide⟩,
    c10_node_value_is_max [{ id := ['A'], value := some 5 }] []
      (by decide) { id := ['A'], value := some 5 } (by decide)⟩

/-- C8: every link that is same-layer, adjacent-layer, reversed, has an
unknown layer on either endpoint, or references a missing node id appears in
the split output unchanged, and its processing step contributes no synthetic
node and leaves the dummy counter untouched. -/
theorem c8_pass_through_unchanged (nodes : List Node) (links : List Link)
    (segments : Option (List (List Char))) (l : Link) (hl : l ∈ links)
    (hp : linkPassThrough (nodes.map (·.id)) (splitLayerDict nodes segments) l = true) :
    l ∈ (split_long_links nodes links segments).2 ∧
    ∀ cnt li, expandLink (nodes.map (·.id)) (splitLayerDict nodes segments) cnt li l =
      ([], [l], cnt) := by
  constructor
  · simp only [split_long_links]
    exact splitLoop_pass_mem _ _ links 0 0 l hl hp
  · intro cnt li
    exact expandLink_pass _ _ cnt li l hp

/-- C8 witness: a reversed two-layer link passes through unchanged. -/
theorem c8_witness :
    (({ source := ['A'], target := ['B'], value := some 1 } : Link) ∈
        ([{ source := ['A'], target := ['B'], value := some 1 }] : List Link) ∧
      linkPassThrough
        (([{ id := ['A'], segment := some (Sum.inl 2) },
           { id := ['B'], segment := some (Sum.inl 0) }] : List Node).map (·.id))
        (splitLayerDict [{ id := ['A'], segment := some (Sum.inl 2) },
           { id := ['B'], segment := some (Sum.inl 0) }] none)
        { source := ['A'], target := ['B'], value := some 1 } = true) ∧
    ({ source := ['A'], target := ['B'], value := some 1 } : Link) ∈
      (split_long_links [{ id := ['A'], segment := some (Sum.inl 2) },
        { id := ['B'], segment := some (Sum.inl 0) }]
        [{ source := ['A'], target := ['B'], value := some 1 }] none).2 ∧
    ∀ cnt li, expandLink
      (([{ id := ['A'], segment := some (Sum.inl 2) },
         { id := ['B'], segment := some (Sum.inl 0) }] : List Node).map (·.id))
      (splitLayerDict [{ id := ['A'], segment := some (Sum.inl 2) },
         { id := ['B'], segment := some (Sum.inl 0) }] none)
      cnt li { source := ['A'], target := ['B'], value := some 1 } =
      ([], [{ source := ['A'], target := ['B'], value := some 1 }], cnt) :=
  ⟨⟨by decide, by decide⟩,
    c8_pass_through_unchanged _ _ none _ (by decide) (by decide)⟩

/-- C2: a link whose target layer exceeds its source layer by exactly k > 1
is replaced by k − 1 synthetic nodes (one per intermediate layer,
source_layer+1 .. target_layer−1) and k adjacent-layer links chained
source → dummy_1 → … → dummy_{k−1} → target, each new link carrying the
original link's value and its whole non-endpoint metadata unchanged. -/
theorem c2_long_link_split (nodes : List Node) (segments : Option (List (List Char)))
    (l : Link) (sL tL : Int) (k : Nat)
    (hmem : l.source ∈ nodes.map (·.id) ∧ l.target ∈ nodes.map (·.id))
    (hs : dictGet? (splitLayerDict nodes segments) l.source = some sL)
    (ht : dictGet? (splitLayerDict nodes segments) l.target = some tL)
    (hk : tL = sL + k) (hk2 : 2 ≤ k) :
    split_long_links nodes [l] segments =
      (nodes ++ (List.range (k - 1)).map (fun j => mkDummy sL tL (1 + j) (sL + 1 + j) 0),
       (List.range k).map (fun j =>
         { source := if j = 0 then l.source else dummyId sL tL j,
           target := if j = k - 1 then l.target else dummyId sL tL (j + 1),
           value := some (l.value.getD 0), meta := l.meta })) := by
  simp only [split_long_links, splitLoop]
  rw [expandLink_split (nodes.map (·.id)) (splitLayerDict nodes segments) 0 0 l sL tL k
    hmem hs ht hk hk2]
  refine Prod.ext ?_ ?_
  · show nodes ++ ((List.range (k - 1)).map (fun j => mkDummy sL tL (0 + 1 + j) (sL + 1 + j) 0)
      ++ []) = _
    simp
  · show (List.range k).map (fun j =>
        ({ source := if j = 0 then l.source else dummyId sL tL (0 + j),
           target := if j = k - 1 then l.target else dummyId sL tL (0 + j + 1),
           value := some (l.value.getD 0), meta := l.meta } : Link)) ++ [] = _
    simp

/-- C2 witness: the spec scenario A(layer 0) → B(layer 2), value 7, metadata
label "long": one synthetic node at layer 1 and two chained links carrying
the value and the metadata. -/
theorem c2_witness :
    ((['A'] ∈ ([{ id := ['A'], segment := some (Sum.inl 0) },
        { id := ['B'], segment := some (Sum.inl 2) }] : List Node).map (·.id) ∧
      ['B'] ∈ ([{ id := ['A'], segment := some (Sum.inl 0) },
        { id := ['B'], segment := some (Sum.inl 2) }] : List Node).map (·.id)) ∧
     dictGet? (splitLayerDict [{ id := ['A'], segment := some (Sum.inl 0) },
        { id := ['B'], segment := some (Sum.inl 2) }] none) ['A'] = some 0 ∧
     dictGet? (splitLayerDict [{ id := ['A'], segment := some (Sum.inl 0) },
        { id := ['B'], segment := some (Sum.inl 2) }] none) ['B'] = some 2 ∧
     (2 : Int) = 0 + (2 : Nat) ∧ 2 ≤ 2) ∧
    split_long_links [{ id := ['A'], segment := some (Sum.inl 0) },
        { id := ['B'], segment := some (Sum.inl 2) }]
      [{ source := ['A'], target := ['B'], value := some 7,
         meta := [(['l','a','b','e','l'], ['l','o','n','g'])] }] none =
      ([{ id := ['A'], segment := some (Sum.inl 0) },
        { id := ['B'], segment := some (Sum.inl 2) }] ++
        (List.range (2 - 1)).map (fun j => mkDummy 0 2 (1 + j) (0 + 1 + j) 0),
       (List.range 2).map (fun j =>
         { source := if j = 0 then ['A'] else dummyId 0 2 j,
           target := if j = 2 - 1 then ['B'] else dummyId 0 2 (j + 1),
           value := some ((some (7 : ℚ)).getD 0),
           meta := [(['l','a','b','e','l'], ['l','o','n','g'])] })) :=
  ⟨⟨⟨by decide, by decide⟩, by decide, by decide, by decide, by decide⟩,
    c2_long_link_split [{ id := ['A'], segment := some (Sum.inl 0) },
        { id := ['B'], segment := some (Sum.inl 2) }] none
      { source := ['A'], target := ['B'], value := some 7,
        meta := [(['l','a','b','e','l'], ['l','o','n','g'])] }
      0 2 2 ⟨by decide, by decide⟩ (by decide) (by decide) (by decide) (by decide)⟩

/-- C7 (amended): all synthetic ids generated in one split_long_links run are
pairwise distinct, and they collide with no input node id provided no input
id starts with the "__dummy_l" marker the generator uses (an adversarial
input node named like a dummy id can collide, so the no-marker proviso is
needed). -/
theorem c7_synthetic_ids_unique (nodes : List Node) (links : List Link)
    (segments : Option (List (List Char))) :
    (((split_long_links nodes links segments).1.drop nodes.length).map (·.id)).Nodup ∧
    ((∀ n ∈ nodes, n.id.take 9 ≠ ['_', '_', 'd', 'u', 'm', 'm', 'y', '_', 'l']) →
      ∀ d ∈ (split_long_links nodes links segments).1.drop nodes.length,
        d.id ∉ nodes.map (·.id)) := by
  have hdrop : (split_long_links nodes links segments).1.drop nodes.length =
      (splitLoop (nodes.map (·.id)) (splitLayerDict nodes segments) 0 0 links).1 := by
    simp only [split_long_links]
    exact List.drop_left nodes _
  obtain ⟨-, hd, hn⟩ :=
    splitLoop_dummies (nodes.map (·.id)) (splitLayerDict nodes segments) links 0 0
  rw [hdrop]
  refine ⟨hn, ?_⟩
  intro h9 d hdm hmem
  obtain ⟨a, b, c, hid, -, -⟩ := hd d hdm
  obtain ⟨n, hnn, hne⟩ := List.mem_map.mp hmem
  exact absurd (hne.trans hid) (ne_dummyId_of_take9 (h9 n hnn) a b c)

/-- C7 witness: splitting A(0) → B(2) twice produces two distinct synthetic
ids, disjoint from the input ids. -/
theorem c7_witness :
    (∀ n ∈ ([{ id := ['A'], segment := some (Sum.inl 0) },
        { id := ['B'], segment := some (Sum.inl 2) }] : List Node),
      n.id.take 9 ≠ ['_', '_', 'd', 'u', 'm', 'm', 'y', '_', 'l']) ∧
    (((split_long_links [{ id := ['A'], segment := some (Sum.inl 0) },
          { id := ['B'], segment := some (Sum.inl 2) }]
        [{ source := ['A'], target := ['B'] }, { source := ['A'], target := ['B'] }]
        none).1.drop
        ([{ id := ['A'], segment := some (Sum.inl 0) },
          { id := ['B'], segment := some (Sum.inl 2) }] : List Node).length).map (·.id)).Nodup ∧
    ∀ d ∈ (split_long_links [{ id := ['A'], segment := some (Sum.inl 0) },
          { id := ['B'], segment := some (Sum.inl 2) }]
        [{ source := ['A'], target := ['B'] }, { source := ['A'], target := ['B'] }]
        none).1.drop
        ([{ id := ['A'], segment := some (Sum.inl 0) },
          { id := ['B'], segment := some (Sum.inl 2) }] : List Node).length,
      d.id ∉ ([{ id := ['A'], segment := some (Sum.inl 0) },
          { id := ['B'], segment := some (Sum.inl 2) }] : List Node).map (·.id) :=
  ⟨by decide,
    (c7_synthetic_ids_unique _ _ none).1,
    (c7_synthetic_ids_unique _ _ none).2 (by decide)⟩

/-- C7 counterexample: an input node whose id is the first generated dummy id
"__dummy_l0_2_1" makes the claim's no-collision part false: the generated
synthetic id equals an input node id. -/
theorem c7_counterexample :
    ['_', '_', 'd', 'u', 'm', 'm', 'y', '_', 'l', '0', '_', '2', '_', '1'] ∈
      ([{ id := ['A'], segment := some (Sum.inl 0) },
        { id := ['B'], segment := some (Sum.inl 2) },
        { id := ['_', '_', 'd', 'u', 'm', 'm', 'y', '_', 'l', '0', '_', '2', '_', '1'] }] :
        List Node).map (·.id) ∧
    ['_', '_', 'd', 'u', 'm', 'm', 'y', '_', 'l', '0', '_', '2', '_', '1'] ∈
      ((split_long_links
        [{ id := ['A'], segment := some (Sum.inl 0) },
         { id := ['B'], segment := some (Sum.inl 2) },
         { id := ['_', '_', 'd', 'u', 'm', 'm', 'y', '_', 'l', '0', '_', '2', '_', '1'] }]
        [{ source := ['A'], target := ['B'] }] none).1.drop 3).map (·.id) := by
  decide

/-! ## Entry shape of dict-building folds -/

theorem mem_dictSet {α β : Type} [DecidableEq α] (m : List (α × β)) (k : α) (v : β) (p : α × β)
    (hp : p ∈ dictSet m k v) : p ∈ m ∨ p = (k, v) := by
  unfold dictSet at hp
  split at hp
  · obtain ⟨q, hq, hqe⟩ := List.mem_map.mp hp
    by_cases hqk : q.1 = k
    · rw [if_pos hqk] at hqe
      exact Or.inr hqe.symm
    · rw [if_neg hqk] at hqe
      exact Or.inl (hqe ▸ hq)
  · rcases List.mem_append.mp hp with h | h
    · exact Or.inl h
    · exact Or.inr (List.mem_singleton.mp h)

theorem dict_foldl_write_entries {α β γ : Type} [DecidableEq α] (key : γ → α) (val : γ → β)
    (P : α × β → Prop) :
    ∀ (xs : List γ) (m : List (α × β)), (∀ p ∈ m, P p) → (∀ x ∈ xs, P (key x, val x)) →
    ∀ p ∈ xs.foldl (fun m y => dictSet m (key y) (val y)) m, P p := by
  intro xs
  induction xs with
  | nil =>
    intro m hm _ p hp
    exact hm p hp
  | cons x xs ih =>
    intro m hm hxs p hp
    rw [List.foldl_cons] at hp
    refine ih _ ?_ (fun y hy => hxs y (List.mem_cons_of_mem x hy)) p hp
    intro q hq
    rcases mem_dictSet m (key x) (val x) q hq with h | h
    · exact hm q h
    · exact h ▸ hxs x (List.mem_cons_self x xs)

theorem layerMapInit_entries (nodes : List Node) (segments : Option (List (List Char))) :
    ∀ p ∈ layerMapInit nodes segments, ∃ n ∈ nodes, p = (n.id, pipelineNodeLayer n segments) := by
  refine dict_foldl_write_entries (fun n : Node => n.id)
    (fun n => pipelineNodeLayer n segments) _ nodes [] (by simp) ?_
  intro x hx
  exact ⟨x, hx, rfl⟩

/-- C3 (amended): when every node's layer resolves explicitly, infer_layers
returns exactly the declared layer of each integer-declared node (the early
return applies, with no normalization shift); when some node's layer is
unknown, the topological pass may raise a declared layer to predecessor
layer + 1. -/
theorem c3_explicit_layer_used (nodes : List Node) (links : List Link)
    (segments : Option (List (List Char)))
    (hall : ∀ n ∈ nodes, (pipelineNodeLayer n segments).isSome = true)
    (hnd : (nodes.map (·.id)).Nodup)
    (n : Node) (hn : n ∈ nodes) (L : Int) (hseg : n.segment = some (Sum.inl L)) :
    dictGet? (infer_layers nodes links segments) n.id = some L := by
  have hall2 : (layerMapInit nodes segments).all (fun p => p.2.isSome) = true := by
    rw [List.all_eq_true]
    intro p hp
    obtain ⟨n', hn', rfl⟩ := layerMapInit_entries nodes segments p hp
    exact hall n' hn'
  simp only [infer_layers, if_pos hall2]
  rw [dictGet?_map_value (fun v : Option Int => v.getD 0) (layerMapInit nodes segments) n.id]
  have hlook : dictGet? (layerMapInit nodes segments) n.id =
      some (pipelineNodeLayer n segments) :=
    dict_foldl_write_lookup (fun n : Node => n.id)
      (fun n => pipelineNodeLayer n segments) nodes [] n hn hnd
  rw [hlook]
  simp [pipelineNodeLayer, hseg]

/-- C3 witness: two explicitly layered nodes keep their declared layers. -/
theorem c3_witness :
    ((∀ n ∈ ([{ id := ['A'], segment := some (Sum.inl 4) },
        { id := ['B'], segment := some (Sum.inl 7) }] : List Node),
      (pipelineNodeLayer n none).isSome = true) ∧
     (([{ id := ['A'], segment := some (Sum.inl 4) },
        { id := ['B'], segment := some (Sum.inl 7) }] : List Node).map (·.id)).Nodup ∧
     ({ id := ['B'], segment := some (Sum.inl 7) } : Node) ∈
       ([{ id := ['A'], segment := some (Sum.inl 4) },
        { id := ['B'], segment := some (Sum.inl 7) }] : List Node) ∧
     ({ id := ['B'], segment := some (Sum.inl 7) } : Node).segment = some (Sum.inl 7)) ∧
    dictGet? (infer_layers [{ id := ['A'], segment := some (Sum.inl 4) },
        { id := ['B'], segment := some (Sum.inl 7) }]
      [{ source := ['A'], target := ['B'] }] none) ['B'] = some 7 :=
  ⟨⟨by decide, by decide, by decide, by decide⟩,
    c3_explicit_layer_used [{ id := ['A'], segment := some (Sum.inl 4) },
        { id := ['B'], segment := some (Sum.inl 7) }]
      [{ source := ['A'], target := ['B'] }] none (by decide) (by decide)
      { id := ['B'], segment := some (Sum.inl 7) } (by decide) 7 (by decide)⟩

/-- C3 counterexample: B and C both declare layer 0, but with A's layer
unknown the topological pass runs and raises B (a successor of A) to layer 1
while C keeps 0 — so B does not get its declared layer, under any uniform
shift. -/
theorem c3_counterexample :
    dictGet? (infer_layers
      [{ id := ['A'] }, { id := ['B'], segment := some (Sum.inl 0) },
       { id := ['C'], segment := some (Sum.inl 0) }]
      [{ source := ['A'], target := ['B'] }] none) ['B'] = some 1 ∧
    dictGet? (infer_layers
      [{ id := ['A'] }, { id := ['B'], segment := some (Sum.inl 0) },
       { id := ['C'], segment := some (Sum.inl 0) }]
      [{ source := ['A'], target := ['B'] }] none) ['C'] = some 0 := by
  decide

/-! ## Non-emptiness through the inference pipeline -/

theorem dict_foldl_write_ne_nil {α β γ : Type} [DecidableEq α] (key : γ → α) (val : γ → β) :
    ∀ (xs : List γ) (m : List (α × β)), m ≠ [] ∨ xs ≠ [] →
    xs.foldl (fun m y => dictSet m (key y) (val y)) m ≠ [] := by
  intro xs
  induction xs with
  | nil =>
    intro m h
    rcases h with h | h
    · exact h
    · exact absurd rfl h
  | cons x xs ih =>
    intro m _
    rw [List.foldl_cons]
    exact ih _ (Or.inl (dictSet_ne_nil _ _ _))

theorem seedPass_lm_ne_nil (indeg : List (List Char × Int)) :
    ∀ (ids0 : List (List Char)) (st : List (List Char) × List (List Char × Option Int)),
    st.2 ≠ [] →
    (ids0.foldl (fun st nid =>
      if (dictGet? indeg nid).getD 0 = 0 then
        (st.1 ++ [nid],
          if dictGet? st.2 nid = some none then dictSet st.2 nid (some 0) else st.2)
      else st) st).2 ≠ [] := by
  intro ids0
  induction ids0 with
  | nil =>
    intro st h
    exact h
  | cons x xs ih =>
    intro st h
    rw [List.foldl_cons]
    apply ih
    by_cases hc : (dictGet? indeg x).getD 0 = 0
    · rw [if_pos hc]
      by_cases h2 : dictGet? st.2 x = some none
      · rw [if_pos h2]
        exact dictSet_ne_nil _ _ _
      · rw [if_neg h2]
        exact h
    · rw [if_neg hc]
      exact h

theorem topoInner_ne_nil (adjL : List (List Char)) (uLayer : Int) :
    ∀ (st : List (List Char) × List (List Char × Int) × List (List Char × Option Int)),
    st.2.2 ≠ [] →
    (adjL.foldl (fun st v =>
      let cur : Option Int := (dictGet? st.2.2 v).bind id
      let candidate := uLayer + 1
      let lm' := match cur with
        | none => dictSet st.2.2 v (some candidate)
        | some c => if candidate > c then dictSet st.2.2 v (some candidate) else st.2.2
      let newIndeg := (dictGet? st.2.1 v).getD 0 - 1
      let ind' := dictSet st.2.1 v newIndeg
      let q' := if newIndeg = 0 then st.1 ++ [v] else st.1
      (q', ind', lm')) st).2.2 ≠ [] := by
  induction adjL with
  | nil =>
    intro st h
    exact h
  | cons v vs ih =>
    intro st h
    rw [List.foldl_cons]
    apply ih
    dsimp only
    cases hcur : (dictGet? st.2.2 v).bind id with
    | none => exact dictSet_ne_nil _ _ _
    | some c =>
      show (if uLayer + 1 > c then dictSet st.2.2 v (some (uLayer + 1)) else st.2.2) ≠ []
      by_cases hgt : uLayer + 1 > c
      · rw [if_pos hgt]
        exact dictSet_ne_nil _ _ _
      · rw [if_neg hgt]
        exact h

theorem topoLoop_ne_nil (adj : List Char → List (List Char)) :
    ∀ (f : Nat) (q : List (List Char)) (indeg : List (List Char × Int))
      (lm : List (List Char × Option Int)), lm ≠ [] → topoLoop adj f q indeg lm ≠ [] := by
  intro f
  induction f with
  | zero =>
    intro q indeg lm h
    exact h
  | succ f ih =>
    intro q indeg lm h
    cases q with
    | nil => exact h
    | cons u rest =>
      simp only [topoLoop]
      apply ih
      exact topoInner_ne_nil (adj u) _ (rest, indeg, lm) h

/-- The normalization tail of infer_layers applied to any non-empty filled
layer dict: the minimum value of the result is 0 (the minimum entry is
shifted to 0 and every value sits at or above it). -/
theorem normalize_min_zero (F : List (List Char × Int)) (m : Int) (hF : F ≠ [])
    (hm : m = pyMinVals F) :
    0 ∈ (if m = 0 then F else F.map (fun p => (p.1, p.2 - m))).map (·.2) ∧
    ∀ v ∈ (if m = 0 then F else F.map (fun p => (p.1, p.2 - m))).map (·.2), 0 ≤ v := by
  cases F with
  | nil => exact absurd rfl hF
  | cons p rest =>
    have hm' : m = rest.foldl (fun m q => min m q.2) p.2 := by
      rw [hm, pyMinVals]
    have hfold : rest.foldl (fun m q => min m q.2) p.2 =
        (rest.map (·.2)).foldl min p.2 := by
      rw [List.foldl_map]
    have hmem : m ∈ (p :: rest).map (·.2) := by
      rw [hm', hfold]
      rcases foldl_min_mem (rest.map (·.2)) p.2 with h | h
      · rw [h]
        exact List.mem_map_of_mem _ (List.mem_cons_self p rest)
      · rw [List.map_cons]
        exact List.mem_cons_of_mem _ h
    have hle : ∀ v ∈ (p :: rest).map (·.2), m ≤ v := by
      intro v hv
      rw [hm', hfold]
      rw [List.map_cons] at hv
      rcases List.mem_cons.mp hv with rfl | hv'
      · exact foldl_min_le_init _ _
      · exact foldl_min_le_mem _ _ _ hv'
    by_cases hz : m = 0
    · rw [if_pos hz]
      exact ⟨hz ▸ hmem, fun v hv => hz ▸ hle v hv⟩
    · rw [if_neg hz]
      have hmap : ((p :: rest).map (fun q => (q.1, q.2 - m))).map (·.2) =
          ((p :: rest).map (·.2)).map (fun v => v - m) := by
        rw [List.map_map, List.map_map]
        rfl
      rw [hmap]
      constructor
      · have := List.mem_map_of_mem (fun v => v - m) hmem
        simpa using this
      · intro v hv
        obtain ⟨w, hw, rfl⟩ := List.mem_map.mp hv
        have := hle w hw
        omega

/-- C6 (amended): whenever the topological inference pass runs (some node's
layer does not resolve in the first pass) and the node set is non-empty, the
layer map returned by infer_layers has minimum value 0; when every node
resolves explicitly the declared layers are returned directly, with no
normalization, so the minimum can differ from 0. -/
theorem c6_min_layer_zero_when_inference_runs (nodes : List Node) (links : List Link)
    (segments : Option (List (List Char)))
    (hne : nodes ≠ [])
    (hun : ¬ (layerMapInit nodes segments).all (fun p => p.2.isSome) = true) :
    0 ∈ (infer_layers nodes links segments).map (·.2) ∧
    ∀ v ∈ (infer_layers nodes links segments).map (·.2), 0 ≤ v := by
  simp only [infer_layers, if_neg hun]
  refine normalize_min_zero _ _ ?_ rfl
  intro hc
  rw [List.map_eq_nil] at hc
  have hlm0 : layerMapInit nodes segments ≠ [] := by
    cases nodes with
    | nil => exact absurd rfl hne
    | cons n ns =>
      exact dict_foldl_write_ne_nil (fun n : Node => n.id)
        (fun n => pipelineNodeLayer n segments) (n :: ns) [] (Or.inr (by simp))
  exact topoLoop_ne_nil _ _ _ _ _
    (seedPass_lm_ne_nil _ (pyDictKeys nodes) ([], layerMapInit nodes segments) hlm0) hc

/-- C6 witness: with A's layer unknown the inference pass runs; the returned
map attains 0 and has no negative value. -/
theorem c6_witness :
    (([{ id := ['A'] }, { id := ['B'], segment := some (Sum.inl 0) }] : List Node) ≠ [] ∧
      ¬ (layerMapInit [{ id := ['A'] }, { id := ['B'], segment := some (Sum.inl 0) }]
          none).all (fun p => p.2.isSome) = true) ∧
    0 ∈ (infer_layers [{ id := ['A'] }, { id := ['B'], segment := some (Sum.inl 0) }]
      [{ source := ['A'], target := ['B'] }] none).map (·.2) ∧
    ∀ v ∈ (infer_layers [{ id := ['A'] }, { id := ['B'], segment := some (Sum.inl 0) }]
      [{ source := ['A'], target := ['B'] }] none).map (·.2), 0 ≤ v :=
  ⟨⟨by decide, by decide⟩,
    c6_min_layer_zero_when_inference_runs
      [{ id := ['A'] }, { id := ['B'], segment := some (Sum.inl 0) }]
      [{ source := ['A'], target := ['B'] }] none (by decide) (by decide)⟩

/-- C6 counterexample: a single node with explicit layer 3 takes the early
return of infer_layers, which skips normalization: the map is non-empty and
its minimum is 3, not 0. -/
theorem c6_counterexample :
    infer_layers [{ id := ['A'], segment := some (Sum.inl 3) }] [] none ≠ [] ∧
    0 ∉ (infer_layers [{ id := ['A'], segment := some (Sum.inl 3) }] [] none).map (·.2) := by
  decide

/-! ## C9: barycenter ordering permutes each layer -/

theorem dictGet?_mem {α β : Type} [DecidableEq α] (m : List (α × β)) (k : α) (v : β)
    (h : dictGet? m k = some v) : (k, v) ∈ m := by
  unfold dictGet? at h
  induction m with
  | nil => simp at h
  | cons p rest ih =>
    by_cases hp : p.1 = k
    · rw [List.find?_cons_of_pos _ (by simp [hp])] at h
      have h' : some p.2 = some v := h
      injection h' with h2
      obtain ⟨p1, p2⟩ := p
      simp only at hp h2
      subst hp
      subst h2
      exact List.mem_cons_self _ _
    · rw [List.find?_cons_of_neg _ (by simp [hp])] at h
      exact List.mem_cons_of_mem p (ih h)

theorem sort_partition_perm (ids : List (List Char)) (w : List Char → Option ℚ) :
    ((isort (fun p q => decide (p.2.getD 0 ≤ q.2.getD 0))
        ((ids.map (fun nid => (nid, w nid))).filter (fun p => p.2.isSome))).map (·.1) ++
     ((ids.map (fun nid => (nid, w nid))).filter (fun p => !p.2.isSome)).map (·.1)).Perm
      ids := by
  have h3 : ((ids.map (fun nid => (nid, w nid))).map (·.1)) = ids := by
    induction ids with
    | nil => rfl
    | cons a t ih =>
      simp only [List.map_cons]
      rw [ih]
  have h1 := isort_perm (fun p q : List Char × Option ℚ => decide (p.2.getD 0 ≤ q.2.getD 0))
    ((ids.map (fun nid => (nid, w nid))).filter (fun p => p.2.isSome))
  have h2 := List.filter_append_perm (fun p : List Char × Option ℚ => p.2.isSome)
    (ids.map (fun nid => (nid, w nid)))
  refine List.Perm.trans (List.Perm.append (h1.map (·.1)) (List.Perm.refl _)) ?_
  rw [← List.map_append]
  have h4 := h2.map (fun p : List Char × Option ℚ => p.1)
  rw [h3] at h4
  exact h4

theorem baryStep_preserves (preds succs : List Char → List (List Char))
    (order0 order : List (Int × List (List Char))) (li' : Int) (u : Bool)
    (hInv : ∀ li cur0, dictGet? order0 li = some cur0 →
      ∃ cur, dictGet? order li = some cur ∧ cur.Perm cur0) :
    ∀ li cur0, dictGet? order0 li = some cur0 →
      ∃ cur, dictGet? (baryStep preds succs order li' u) li = some cur ∧ cur.Perm cur0 := by
  intro li cur0 h0
  obtain ⟨cur, hcur, hperm⟩ := hInv li cur0 h0
  by_cases hli : li = li'
  · subst hli
    unfold baryStep
    rw [hcur]
    simp only [Option.getD_some]
    refine ⟨_, dictGet?_dictSet_self _ _ _, ?_⟩
    exact (sort_partition_perm cur
      (fun nid => baryWeights order (if u = true then preds nid else succs nid))).trans hperm
  · unfold baryStep
    refine ⟨cur, ?_, hperm⟩
    rw [dictGet?_dictSet_ne _ _ _ _ hli]
    exact hcur

theorem baryFold_preserves (preds succs : List Char → List (List Char))
    (order0 : List (Int × List (List Char))) (u : Bool) :
    ∀ (lis : List Int) (order : List (Int × List (List Char))),
    (∀ li cur0, dictGet? order0 li = some cur0 →
      ∃ cur, dictGet? order li = some cur ∧ cur.Perm cur0) →
    ∀ li cur0, dictGet? order0 li = some cur0 →
      ∃ cur, dictGet? (lis.foldl (fun o li => baryStep preds succs o li u) order) li =
        some cur ∧ cur.Perm cur0 := by
  intro lis
  induction lis with
  | nil =>
    intro order hInv
    exact hInv
  | cons x xs ih =>
    intro order hInv
    rw [List.foldl_cons]
    exact ih _ (baryStep_preserves preds succs order0 order x u hInv)

theorem barySweeps_preserves (preds succs : List Char → List (List Char))
    (layerIndices : List Int) (order0 : List (Int × List (List Char))) :
    ∀ (it : Nat) (order : List (Int × List (List Char))),
    (∀ li cur0, dictGet? order0 li = some cur0 →
      ∃ cur, dictGet? order li = some cur ∧ cur.Perm cur0) →
    ∀ li cur0, dictGet? order0 li = some cur0 →
      ∃ cur, dictGet? (barySweeps preds succs layerIndices it order) li =
        some cur ∧ cur.Perm cur0 := by
  intro it
  induction it with
  | zero =>
    intro order hInv
    exact hInv
  | succ it ih =>
    intro order hInv
    simp only [barySweeps]
    refine ih _ ?_
    refine baryFold_preserves preds succs order0 false _ _ ?_
    exact baryFold_preserves preds succs order0 true _ _ hInv

/-- C9: for every layer, the ordering returned by barycenter_ordering is a
permutation of that layer's original node-id sequence, for every link list
and every iteration count. -/
theorem c9_barycenter_is_permutation (layers : List (Int × List Node)) (links : List Link)
    (iterations : Nat) (hnd : (layers.map (·.1)).Nodup) (li : Int) (lst : List Node)
    (hli : dictGet? layers li = some lst) :
    ∃ out, dictGet? (barycenter_ordering layers links iterations) li = some out ∧
      out.Perm (lst.map (·.id)) := by
  have hmem : (li, lst) ∈ layers := dictGet?_mem layers li lst hli
  have h0 : dictGet? (layers.foldl (fun m p => dictSet m p.1 (p.2.map (·.id))) []) li =
      some (lst.map (·.id)) :=
    dict_foldl_write_lookup (fun p : Int × List Node => p.1)
      (fun p : Int × List Node => p.2.map (·.id)) layers [] (li, lst) hmem hnd
  simp only [barycenter_ordering]
  refine barySweeps_preserves _ _ _ _ iterations _ ?_ li (lst.map (·.id)) h0
  intro li' cur0 h0'
  exact ⟨cur0, h0', List.Perm.refl _⟩

/-- C9 witness: a one-layer, no-link instance; the ordering of layer 0 is a
permutation of the layer's ids. -/
theorem c9_witness :
    ((([((0 : Int), [{ id := ['A'] }, { id := ['B'] }])] :
        List (Int × List Node)).map (·.1)).Nodup ∧
      dictGet? ([((0 : Int), [{ id := ['A'] }, { id := ['B'] }])] :
        List (Int × List Node)) 0 = some [{ id := ['A'] }, { id := ['B'] }]) ∧
    ∃ out, dictGet? (barycenter_ordering
        [((0 : Int), [{ id := ['A'] }, { id := ['B'] }])] [] 0) 0 = some out ∧
      out.Perm (([{ id := ['A'] }, { id := ['B'] }] : List Node).map (·.id)) :=
  ⟨⟨by decide, by decide⟩,
    c9_barycenter_is_permutation [((0 : Int), [{ id := ['A'] }, { id := ['B'] }])] [] 0
      (by decide) 0 [{ id := ['A'] }, { id := ['B'] }] (by decide)⟩

/-- C5: compute_positions does NOT survive a layer whose nodes' total value
is zero: the value-proportional height computation divides by the zero
layer total, which in Python raises ZeroDivisionError (modelled as the error
result), contradicting the no-division-error design.  A single node of value
0 in layer 0 triggers it. -/
theorem c5_zero_total_layer_raises :
    compute_positions [((0 : Int), [{ id := ['A'] }])] [((0 : Int), [['A']])]
      [(['A'], (0 : ℚ))] = .error "float division by zero" := by
  have hval : dictGet? [(['A'], (0 : ℚ))] ['A'] = some 0 := rfl
  have hord : dictGet? ([((0 : Int), [['A']])] : List (Int × List (List Char))) 0 =
      some [['A']] := rfl
  simp only [compute_positions, positionsLoop, hval, hord]
  norm_num [hval]

/-! ## C4: outgoing thickness bound -/

theorem enumFrom_fst_ge (links : List Link) :
    ∀ (n : Nat), ∀ k ∈ (links.enumFrom n).map (·.1), n ≤ k := by
  induction links with
  | nil =>
    intro n k hk
    simp [List.enumFrom] at hk
  | cons l ls ih =>
    intro n k hk
    simp only [List.enumFrom, List.map_cons, List.mem_cons] at hk
    rcases hk with rfl | hk
    · exact le_refl k
    · exact le_trans (Nat.le_succ n) (ih (n + 1) k hk)

theorem enumFrom_fst_nodup (links : List Link) :
    ∀ (n : Nat), ((links.enumFrom n).map (·.1)).Nodup := by
  induction links with
  | nil =>
    intro n
    simp [List.enumFrom]
  | cons l ls ih =>
    intro n
    simp only [List.enumFrom, List.map_cons, List.nodup_cons]
    refine ⟨?_, ih (n + 1)⟩
    intro hmem
    have := enumFrom_fst_ge ls (n + 1) n hmem
    omega

theorem enum_fst_nodup (links : List Link) : (links.enum.map (·.1)).Nodup :=
  enumFrom_fst_nodup links 0

theorem mem_enumFrom_snd (links : List Link) :
    ∀ (n : Nat) (p : Nat × Link), p ∈ links.enumFrom n → p.2 ∈ links := by
  induction links with
  | nil =>
    intro n p hp
    simp [List.enumFrom] at hp
  | cons l ls ih =>
    intro n p hp
    simp only [List.enumFrom, List.mem_cons] at hp
    rcases hp with rfl | hp
    · exact List.mem_cons_self _ _
    · exact List.mem_cons_of_mem _ (ih (n + 1) p hp)

theorem mem_enum_snd (links : List Link) (p : Nat × Link) (hp : p ∈ links.enum) : p.2 ∈ links :=
  mem_enumFrom_snd links 0 p hp

theorem enumFrom_filter_map_val (N : List Char) (links : List Link) :
    ∀ (n : Nat),
    ((links.enumFrom n).filter (fun p => decide (p.2.source = N))).map
      (fun p => p.2.value.getD 0) =
    (links.filter (fun l => decide (l.source = N))).map (fun l => l.value.getD 0) := by
  induction links with
  | nil =>
    intro n
    rfl
  | cons l ls ih =>
    intro n
    simp only [List.enumFrom]
    by_cases hsrc : l.source = N
    · rw [List.filter_cons_of_pos (by simpa using hsrc),
        List.filter_cons_of_pos (by simpa using hsrc), List.map_cons, List.map_cons, ih (n + 1)]
    · rw [List.filter_cons_of_neg (by simpa using hsrc),
        List.filter_cons_of_neg (by simpa using hsrc), ih (n + 1)]

theorem sum_map_mul_const {γ : Type} (l : List γ) (f : γ → ℚ) (c : ℚ) :
    (l.map (fun x => f x * c)).sum = (l.map f).sum * c := by
  induction l with
  | nil => simp
  | cons x xs ih =>
    simp only [List.map_cons, List.sum_cons, ih]
    ring

/-- C4 (amended): the sum of a node's outgoing link thicknesses is at most
node height × width-factor provided, in addition to the claim's conditions
(width-factor ≤ 1, min-thickness floor not binding), every outgoing link's
target-side scale — when one exists — is at most the node's source-side
scale (h × factor / outgoing sum).  Without that proviso the per-link
average of the two side scales can exceed the source-side scale and break
the bound. -/
theorem c4_outgoing_thickness_bound (links : List Link) (sizes : List (List Char × (ℚ × ℚ)))
    (factor min_thickness : ℚ) (N : List Char) (w h : ℚ)
    (hnd : (sizes.map (·.1)).Nodup)
    (hsz : dictGet? sizes N = some (w, h))
    (hso : 0 < outgoingSum links N)
    (hvals : ∀ l ∈ links, 0 ≤ l.value.getD 0)
    (hfac : factor ≤ 1)
    (htgt : ∀ l ∈ links, l.source = N → ∀ s2,
      dictGet? (scaleInDict links sizes factor) l.target = some s2 →
      s2 ≤ (h * factor) / outgoingSum links N)
    (hfloor : ∀ p ∈ links.enum, p.2.source = N →
      min_thickness ≤ p.2.value.getD 0 * linkScale links sizes factor p.2) :
    ((links.enum.filter (fun p => decide (p.2.source = N))).map
      (fun p => (dictGet? (_compute_link_thicknesses links sizes factor min_thickness)
        p.1).getD 0)).sum ≤ h * factor := by
  have hsum : (dictGet? (sumOutDict links) N).getD 0 = outgoingSum links N := by
    unfold sumOutDict
    rw [dict_foldl_accum_lookup (fun l : Link => l.source) (fun l : Link => l.value.getD 0)]
    simp [outgoingSum, dictGet?]
  have hscaleN : dictGet? (scaleOutDict links sizes factor) N =
      some ((h * factor) / outgoingSum links N) := by
    have hmemsz := dictGet?_mem sizes N (w, h) hsz
    have hc : ((dictGet? (sumOutDict links) (N, (w, h)).1).getD 0 > 0) := by
      rw [hsum]
      exact hso
    have hkl := dict_foldl_condwrite_lookup (fun p : List Char × (ℚ × ℚ) => p.1)
      (fun p => (p.2.2 * factor) / (dictGet? (sumOutDict links) p.1).getD 0)
      (fun p => (dictGet? (sumOutDict links) p.1).getD 0 > 0) sizes [] (N, (w, h))
      hmemsz hnd hc
    simp only at hkl
    rw [hsum] at hkl
    exact hkl
  have hlinks_ne : links ≠ [] := by
    intro hnil
    rw [hnil] at hso
    simp [outgoingSum] at hso
  have hthick : ∀ p ∈ links.enum,
      dictGet? (_compute_link_thicknesses links sizes factor min_thickness) p.1 =
        some (max min_thickness (p.2.value.getD 0 * linkScale links sizes factor p.2)) := by
    intro p hp
    unfold _compute_link_thicknesses
    rw [if_neg hlinks_ne]
    exact lookup_map_pairs (fun q : Nat × Link => q.1)
      (fun q => max min_thickness (q.2.value.getD 0 * linkScale links sizes factor q.2))
      links.enum p hp (enum_fst_nodup links)
  have hmapeq : (links.enum.filter (fun p => decide (p.2.source = N))).map
      (fun p => (dictGet? (_compute_link_thicknesses links sizes factor min_thickness)
        p.1).getD 0) =
      (links.enum.filter (fun p => decide (p.2.source = N))).map
      (fun p => p.2.value.getD 0 * linkScale links sizes factor p.2) := by
    apply List.map_congr_left
    intro p hp
    have hpe : p ∈ links.enum := List.mem_of_mem_filter hp
    have hps : p.2.source = N := by
      have := List.of_mem_filter hp
      simpa using this
    rw [hthick p hpe]
    simp only [Option.getD_some]
    exact max_eq_right (hfloor p hpe hps)
  rw [hmapeq]
  have hbound : ∀ p ∈ links.enum.filter (fun p => decide (p.2.source = N)),
      p.2.value.getD 0 * linkScale links sizes factor p.2 ≤
      p.2.value.getD 0 * ((h * factor) / outgoingSum links N) := by
    intro p hp
    have hpe : p ∈ links.enum := List.mem_of_mem_filter hp
    have hps : p.2.source = N := by
      have := List.of_mem_filter hp
      simpa using this
    have hv : 0 ≤ p.2.value.getD 0 := hvals p.2 (mem_enum_snd links p hpe)
    refine mul_le_mul_of_nonneg_left ?_ hv
    unfold linkScale
    rw [hps, hscaleN]
    cases hin : dictGet? (scaleInDict links sizes factor) p.2.target with
    | none => exact le_refl _
    | some s2 =>
      have hs2 := htgt p.2 (mem_enum_snd links p hpe) hps s2 hin
      show ((h * factor) / outgoingSum links N + s2) / 2 ≤
        (h * factor) / outgoingSum links N
      linarith
  refine le_trans (List.sum_le_sum hbound) ?_
  rw [sum_map_mul_const (links.enum.filter (fun p => decide (p.2.source = N)))
    (fun p => p.2.value.getD 0) ((h * factor) / outgoingSum links N)]
  rw [show links.enum = links.enumFrom 0 from rfl, enumFrom_filter_map_val N links 0]
  show outgoingSum links N * ((h * factor) / outgoingSum links N) ≤ h * factor
  rw [mul_comm, div_mul_cancel₀ _ (ne_of_gt hso)]

/-- C4 witness: one link N → T of value 5, N of height 10, factor 1; T has
no size entry, so only the source-side scale applies and the outgoing
thickness sum 10 meets the bound 10 × 1. -/
theorem c4_witness :
    ((([(['N'], ((20 : ℚ), (10 : ℚ)))] : List (List Char × (ℚ × ℚ))).map (·.1)).Nodup ∧
     dictGet? [(['N'], ((20 : ℚ), (10 : ℚ)))] ['N'] = some (20, 10) ∧
     (0 : ℚ) < outgoingSum [{ source := ['N'], target := ['T'], value := some 5 }] ['N'] ∧
     (∀ l ∈ ([{ source := ['N'], target := ['T'], value := some 5 }] : List Link),
       0 ≤ l.value.getD 0) ∧
     (1 : ℚ) ≤ 1 ∧
     (∀ l ∈ ([{ source := ['N'], target := ['T'], value := some 5 }] : List Link),
       l.source = ['N'] → ∀ s2,
       dictGet? (scaleInDict [{ source := ['N'], target := ['T'], value := some 5 }]
         [(['N'], ((20 : ℚ), (10 : ℚ)))] 1) l.target = some s2 →
       s2 ≤ ((10 : ℚ) * 1) / outgoingSum
         [{ source := ['N'], target := ['T'], value := some 5 }] ['N']) ∧
     (∀ p ∈ ([{ source := ['N'], target := ['T'], value := some 5 }] : List Link).enum,
       p.2.source = ['N'] → (1 : ℚ) ≤ p.2.value.getD 0 *
         linkScale [{ source := ['N'], target := ['T'], value := some 5 }]
           [(['N'], ((20 : ℚ), (10 : ℚ)))] 1 p.2)) ∧
    ((([{ source := ['N'], target := ['T'], value := some 5 }] : List Link).enum.filter
        (fun p => decide (p.2.source = ['N']))).map
      (fun p => (dictGet? (_compute_link_thicknesses
        [{ source := ['N'], target := ['T'], value := some 5 }]
        [(['N'], ((20 : ℚ), (10 : ℚ)))] 1 1) p.1).getD 0)).sum ≤ (10 : ℚ) * 1 := by
  have htgt0 : dictGet? (scaleInDict [{ source := ['N'], target := ['T'], value := some 5 }]
      [(['N'], ((20 : ℚ), (10 : ℚ)))] 1) ['T'] = none := by
    norm_num [scaleInDict, sumInDict, dictGet?, dictSet, List.find?]
  have hhtgt : ∀ l ∈ ([{ source := ['N'], target := ['T'], value := some 5 }] : List Link),
      l.source = ['N'] → ∀ s2,
      dictGet? (scaleInDict [{ source := ['N'], target := ['T'], value := some 5 }]
        [(['N'], ((20 : ℚ), (10 : ℚ)))] 1) l.target = some s2 →
      s2 ≤ ((10 : ℚ) * 1) / outgoingSum
        [{ source := ['N'], target := ['T'], value := some 5 }] ['N'] := by
    intro l hl _ s2 hs2
    simp only [List.mem_singleton] at hl
    subst hl
    rw [htgt0] at hs2
    exact absurd hs2 (by simp)
  have hhfloor : ∀ p ∈ ([{ source := ['N'], target := ['T'], value := some 5 }] :
      List Link).enum, p.2.source = ['N'] → (1 : ℚ) ≤ p.2.value.getD 0 *
      linkScale [{ source := ['N'], target := ['T'], value := some 5 }]
        [(['N'], ((20 : ℚ), (10 : ℚ)))] 1 p.2 := by
    intro p hp _
    simp only [List.enum, List.enumFrom, List.mem_singleton] at hp
    subst hp
    norm_num [linkScale, scaleOutDict, scaleInDict, sumOutDict, sumInDict, dictGet?,
      dictSet, List.find?, defaultScale]
  have hso : (0 : ℚ) < outgoingSum
      [{ source := ['N'], target := ['T'], value := some 5 }] ['N'] := by
    norm_num [outgoingSum]
  refine ⟨⟨by decide, rfl, hso, by norm_num, by norm_num, hhtgt, hhfloor⟩, ?_⟩
  exact c4_outgoing_thickness_bound
    [{ source := ['N'], target := ['T'], value := some 5 }]
    [(['N'], ((20 : ℚ), (10 : ℚ)))] 1 1 ['N'] 20 10 (by decide) rfl hso
    (by norm_num) (by norm_num) hhtgt hhfloor

/-- C4 counterexample: one link of value 1 from N (height 10) to T (height
1000), factor 1.  The claim's side conditions hold (factor ≤ 1, the
min-thickness floor is not binding), yet the average with T's huge
target-side scale makes the single outgoing thickness 505, far above
node height × factor = 10. -/
theorem c4_counterexample :
    (1 : ℚ) ≤ 1 ∧
    (∀ p ∈ ([{ source := ['N'], target := ['T'], value := some 1 }] : List Link).enum,
      p.2.source = ['N'] → (1 : ℚ) ≤ p.2.value.getD 0 *
        linkScale [{ source := ['N'], target := ['T'], value := some 1 }]
          [(['N'], ((20 : ℚ), (10 : ℚ))), (['T'], ((20 : ℚ), (1000 : ℚ)))] 1 p.2) ∧
    (10 : ℚ) * 1 <
      ((([{ source := ['N'], target := ['T'], value := some 1 }] : List Link).enum.filter
          (fun p => decide (p.2.source = ['N']))).map
        (fun p => (dictGet? (_compute_link_thicknesses
          [{ source := ['N'], target := ['T'], value := some 1 }]
          [(['N'], ((20 : ℚ), (10 : ℚ))), (['T'], ((20 : ℚ), (1000 : ℚ)))] 1 1) p.1).getD
          0)).sum := by
  refine ⟨by norm_num, ?_, ?_⟩
  · intro p hp _
    simp only [List.enum, List.enumFrom, List.mem_singleton] at hp
    subst hp
    norm_num [linkScale, scaleOutDict, scaleInDict, sumOutDict, sumInDict, dictGet?,
      dictSet, List.find?, defaultScale]
  · norm_num [_compute_link_thicknesses, linkScale, scaleOutDict, scaleInDict, sumOutDict,
      sumInDict, dictGet?, dictSet, List.find?, defaultScale, List.enum, List.enumFrom]

/-! ## Layer resolution over the output node set -/

theorem splitLayerDict_skip_dummies : ∀ (ys xs : List Node)
    (segs : Option (List (List Char))) (s : List Char),
    (∀ d ∈ ys, d.id ≠ s) →
    dictGet? (splitLayerDict (xs ++ ys) segs) s = dictGet? (splitLayerDict xs segs) s := by
  intro ys
  induction ys with
  | nil =>
    intro xs segs s _
    rw [List.append_nil]
  | cons d ys ih =>
    intro xs segs s h
    have e : xs ++ d :: ys = (xs ++ [d]) ++ ys := by simp
    rw [e, ih (xs ++ [d]) segs s (fun d2 hd2 => h d2 (List.mem_cons_of_mem d hd2))]
    simp only [splitLayerDict]
    rw [List.foldl_append, List.foldl_cons, List.foldl_nil]
    cases hL : _get_node_layer d segs
    · rfl
    · exact dictGet?_dictSet_ne _ _ _ _ (Ne.symm (h d (List.mem_cons_self d ys)))

theorem splitLayerDict_dummy_lookup : ∀ (ys xs : List Node)
    (segs : Option (List (List Char))) (d : Node) (L : Int),
    d ∈ ys → (ys.map (fun n => n.id)).Nodup → d.segment = some (Sum.inl L) →
    dictGet? (splitLayerDict (xs ++ ys) segs) d.id = some L := by
  intro ys
  induction ys with
  | nil =>
    intro xs segs d L hd
    simp at hd
  | cons y ys ih =>
    intro xs segs d L hd hnd hseg
    simp only [List.map_cons, List.nodup_cons] at hnd
    rcases List.mem_cons.mp hd with rfl | hd2
    · have hne : ∀ d2 ∈ ys, d2.id ≠ d.id := by
        intro d2 hd2 hcon
        exact hnd.1 (hcon ▸ List.mem_map_of_mem (fun n => n.id) hd2)
      have e : xs ++ d :: ys = (xs ++ [d]) ++ ys := by simp
      rw [e, splitLayerDict_skip_dummies ys (xs ++ [d]) segs d.id hne]
      simp only [splitLayerDict]
      rw [List.foldl_append, List.foldl_cons, List.foldl_nil]
      have hLd : _get_node_layer d segs = some L := by simp [_get_node_layer, hseg]
      rw [hLd]
      exact dictGet?_dictSet_self _ _ _
    · have e : xs ++ y :: ys = (xs ++ [y]) ++ ys := by simp
      rw [e]
      exact ih (xs ++ [y]) segs d L hd2 hnd.2 hseg

/-- Every output link of the link loop comes from some input link, at some
counter state, and the dummies produced alongside it are in the loop's dummy
output. -/
theorem splitLoop_link_origin (nodeIds : List (List Char)) (lm : List (List Char × Int)) :
    ∀ (ls : List Link) (cnt li : Nat) (l2 : Link),
    l2 ∈ (splitLoop nodeIds lm cnt li ls).2.1 →
    ∃ cnt2 li2 l, l ∈ ls ∧ l2 ∈ (expandLink nodeIds lm cnt2 li2 l).2.1 ∧
      ∀ d ∈ (expandLink nodeIds lm cnt2 li2 l).1, d ∈ (splitLoop nodeIds lm cnt li ls).1 := by
  intro ls
  induction ls with
  | nil =>
    intro cnt li l2 h
    simp [splitLoop] at h
  | cons x xs ih =>
    intro cnt li l2 h
    simp only [splitLoop] at h ⊢
    rcases List.mem_append.mp h with h | h
    · exact ⟨cnt, li, x, List.mem_cons_self x xs, h, fun d hd => List.mem_append_left _ hd⟩
    · obtain ⟨cnt2, li2, l, hl, hmem, hsub⟩ := ih _ (li + 1) l2 h
      exact ⟨cnt2, li2, l, List.mem_cons_of_mem x hl, hmem,
        fun d hd => List.mem_append_right _ (hsub d hd)⟩

/-- The loop body either passes a link through unchanged (with the
pass-through condition holding) or replaces it with a full adjacent chain. -/
theorem expandLink_pass_or_chain (nodeIds : List (List Char)) (lm : List (List Char × Int))
    (cnt li : Nat) (l : Link) :
    (linkPassThrough nodeIds lm l = true ∧ expandLink nodeIds lm cnt li l = ([], [l], cnt)) ∨
    ∃ (sL tL : Int) (k : Nat), dictGet? lm l.source = some sL ∧
      dictGet? lm l.target = some tL ∧
      l.source ∈ nodeIds ∧ l.target ∈ nodeIds ∧ tL = sL + k ∧ 2 ≤ k ∧
      expandLink nodeIds lm cnt li l =
        ((List.range (k - 1)).map (fun j => mkDummy sL tL (cnt + 1 + j) (sL + 1 + j) li),
         (List.range k).map (fun j =>
           { source := if j = 0 then l.source else dummyId sL tL (cnt + j),
             target := if j = k - 1 then l.target else dummyId sL tL (cnt + j + 1),
             value := some (l.value.getD 0), meta := l.meta }),
         cnt + (k - 1)) := by
  by_cases hmem : l.source ∈ nodeIds ∧ l.target ∈ nodeIds
  · cases hs : dictGet? lm l.source with
    | none =>
      left
      have hp : linkPassThrough nodeIds lm l = true := by
        simp [linkPassThrough, hs]
      exact ⟨hp, expandLink_pass _ _ _ _ _ hp⟩
    | some a =>
      cases ht : dictGet? lm l.target with
      | none =>
        left
        have hp : linkPassThrough nodeIds lm l = true := by
          simp [linkPassThrough, hs, ht]
        exact ⟨hp, expandLink_pass _ _ _ _ _ hp⟩
      | some b =>
        by_cases h1 : b = a ∨ (b - a).natAbs = 1
        · left
          have hp : linkPassThrough nodeIds lm l = true := by
            rcases h1 with h1 | h1 <;> simp [linkPassThrough, hs, ht, h1]
          exact ⟨hp, expandLink_pass _ _ _ _ _ hp⟩
        · by_cases h2 : b < a
          · left
            have hp : linkPassThrough nodeIds lm l = true := by
              simp [linkPassThrough, hs, ht, h2]
            exact ⟨hp, expandLink_pass _ _ _ _ _ hp⟩
          · right
            refine ⟨a, b, (b - a).toNat, rfl, rfl, hmem.1, hmem.2, by omega, by omega, ?_⟩
            exact expandLink_split nodeIds lm cnt li l a b (b - a).toNat hmem hs ht
              (by omega) (by omega)
  · left
    have hf : (decide (l.source ∈ nodeIds) && decide (l.target ∈ nodeIds)) = false := by
      by_cases h1 : l.source ∈ nodeIds
      · have h2 : ¬ l.target ∈ nodeIds := fun h2 => hmem ⟨h1, h2⟩
        simp [h1, h2]
      · simp [h1]
    have hp : linkPassThrough nodeIds lm l = true := by
      unfold linkPassThrough
      rw [hf, Bool.not_false, Bool.true_or]
    exact ⟨hp, expandLink_pass _ _ _ _ _ hp⟩

/-- C1 (amended): when no input node id carries the nine-character synthetic
marker "__dummy_l", every link in split_long_links' output either satisfies
the pass-through condition (missing endpoint, unknown layer, same-layer,
adjacent, or reversed link) with respect to the input layer map, or connects
nodes whose layers, resolved over the output node set, differ by exactly one
(target layer = source layer + 1). -/
theorem c1_adjacent_or_passthrough (nodes : List Node) (links : List Link)
    (segments : Option (List (List Char)))
    (hids : ∀ n ∈ nodes, n.id.take 9 ≠ ['_', '_', 'd', 'u', 'm', 'm', 'y', '_', 'l']) :
    ∀ l2 ∈ (split_long_links nodes links segments).2,
      linkPassThrough (nodes.map (·.id)) (splitLayerDict nodes segments) l2 = true ∨
      ∃ a : Int,
        dictGet? (splitLayerDict (split_long_links nodes links segments).1 segments)
          l2.source = some a ∧
        dictGet? (splitLayerDict (split_long_links nodes links segments).1 segments)
          l2.target = some (a + 1) := by
  intro l2 hl2
  dsimp only [split_long_links] at hl2 ⊢
  obtain ⟨cnt2, li2, l, hlmem, hlin, hsub⟩ :=
    splitLoop_link_origin (nodes.map (·.id)) (splitLayerDict nodes segments) links 0 0 l2 hl2
  have hdum := (splitLoop_dummies (nodes.map (·.id)) (splitLayerDict nodes segments) links 0 0).2.1
  have hDnodup :=
    (splitLoop_dummies (nodes.map (·.id)) (splitLayerDict nodes segments) links 0 0).2.2
  rcases expandLink_pass_or_chain (nodes.map (·.id)) (splitLayerDict nodes segments) cnt2 li2 l
    with ⟨hpt, heq⟩ | ⟨sL, tL, k, hs, ht, hm1, hm2, hk, hk2, heq⟩
  · rw [heq] at hlin
    simp only [List.mem_singleton] at hlin
    subst hlin
    exact Or.inl hpt
  · rw [heq] at hlin hsub
    dsimp only at hlin hsub
    simp only [List.mem_map, List.mem_range] at hlin
    obtain ⟨j, hj, rfl⟩ := hlin
    right
    dsimp only
    have hA : ∀ (s : List Char) (a : Int), s ∈ nodes.map (·.id) →
        dictGet? (splitLayerDict nodes segments) s = some a →
        dictGet? (splitLayerDict
          (nodes ++ (splitLoop (nodes.map (·.id)) (splitLayerDict nodes segments) 0 0 links).1)
          segments) s = some a := by
      intro s a hsmem hsa
      have hne : ∀ d ∈ (splitLoop (nodes.map (·.id)) (splitLayerDict nodes segments)
          0 0 links).1, d.id ≠ s := by
        intro d hd hcon
        obtain ⟨x, y, c, hdid, -, -⟩ := hdum d hd
        obtain ⟨n, hn, hnid⟩ := List.mem_map.mp hsmem
        have htake : s.take 9 ≠ ['_', '_', 'd', 'u', 'm', 'm', 'y', '_', 'l'] := by
          rw [← hnid]
          exact hids n hn
        exact ne_dummyId_of_take9 htake x y c (hcon ▸ hdid)
      rw [splitLayerDict_skip_dummies _ nodes segments s hne]
      exact hsa
    have hsrc : dictGet? (splitLayerDict
        (nodes ++ (splitLoop (nodes.map (·.id)) (splitLayerDict nodes segments) 0 0 links).1)
        segments) (if j = 0 then l.source else dummyId sL tL (cnt2 + j)) =
        some (sL + (j : Int)) := by
      by_cases hj0 : j = 0
      · subst hj0
        rw [if_pos rfl]
        simpa using hA l.source sL hm1 hs
      · rw [if_neg hj0]
        have hmemD := hsub _ (List.mem_map_of_mem _
          (List.mem_range.mpr (show j - 1 < k - 1 by omega)))
        have hB := splitLayerDict_dummy_lookup _ nodes segments
          (mkDummy sL tL (cnt2 + 1 + (j - 1)) (sL + 1 + ((j - 1 : Nat) : Int)) li2)
          (sL + 1 + ((j - 1 : Nat) : Int)) hmemD hDnodup rfl
        dsimp only [mkDummy] at hB
        have e1 : cnt2 + 1 + (j - 1) = cnt2 + j := by omega
        have e2 : sL + 1 + ((j - 1 : Nat) : Int) = sL + (j : Int) := by omega
        rw [e1, e2] at hB
        exact hB
    have htgt : dictGet? (splitLayerDict
        (nodes ++ (splitLoop (nodes.map (·.id)) (splitLayerDict nodes segments) 0 0 links).1)
        segments) (if j = k - 1 then l.target else dummyId sL tL (cnt2 + j + 1)) =
        some (sL + (j : Int) + 1) := by
      by_cases hjk : j = k - 1
      · rw [if_pos hjk]
        have hAt := hA l.target tL hm2 ht
        have e : tL = sL + (j : Int) + 1 := by omega
        rw [e] at hAt
        exact hAt
      · rw [if_neg hjk]
        have hmemD := hsub _ (List.mem_map_of_mem _
          (List.mem_range.mpr (show j < k - 1 by omega)))
        have hB := splitLayerDict_dummy_lookup _ nodes segments
          (mkDummy sL tL (cnt2 + 1 + j) (sL + 1 + (j : Int)) li2)
          (sL + 1 + (j : Int)) hmemD hDnodup rfl
        dsimp only [mkDummy] at hB
        have e1 : cnt2 + 1 + j = cnt2 + j + 1 := by omega
        have e2 : sL + 1 + (j : Int) = sL + (j : Int) + 1 := by ring
        rw [e1, e2] at hB
        exact hB
    exact ⟨sL + (j : Int), hsrc, htgt⟩

/-- C1 witness: splitting A(layer 0) → B(layer 2) leaves every output link
either passing through or spanning exactly one layer over the output nodes. -/
theorem c1_witness :
    (∀ n ∈ [({ id := ['A'], segment := some (Sum.inl 0) } : Node),
            { id := ['B'], segment := some (Sum.inl 2) }],
      n.id.take 9 ≠ ['_', '_', 'd', 'u', 'm', 'm', 'y', '_', 'l']) ∧
    (∀ l2 ∈ (split_long_links
        [({ id := ['A'], segment := some (Sum.inl 0) } : Node),
         { id := ['B'], segment := some (Sum.inl 2) }]
        [{ source := ['A'], target := ['B'], value := some 7 }] none).2,
      linkPassThrough
        (([({ id := ['A'], segment := some (Sum.inl 0) } : Node),
           { id := ['B'], segment := some (Sum.inl 2) }]).map (·.id))
        (splitLayerDict
          [({ id := ['A'], segment := some (Sum.inl 0) } : Node),
           { id := ['B'], segment := some (Sum.inl 2) }] none) l2 = true ∨
      ∃ a : Int,
        dictGet? (splitLayerDict (split_long_links
          [({ id := ['A'], segment := some (Sum.inl 0) } : Node),
           { id := ['B'], segment := some (Sum.inl 2) }]
          [{ source := ['A'], target := ['B'], value := some 7 }] none).1 none)
          l2.source = some a ∧
        dictGet? (splitLayerDict (split_long_links
          [({ id := ['A'], segment := some (Sum.inl 0) } : Node),
           { id := ['B'], segment := some (Sum.inl 2) }]
          [{ source := ['A'], target := ['B'], value := some 7 }] none).1 none)
          l2.target = some (a + 1)) :=
  ⟨by decide, c1_adjacent_or_passthrough
    [({ id := ['A'], segment := some (Sum.inl 0) } : Node),
     { id := ['B'], segment := some (Sum.inl 2) }]
    [{ source := ['A'], target := ['B'], value := some 7 }] none (by decide)⟩

/-- C1 counterexample: a reversed link A(layer 2) → B(layer 0) appears in the
output unchanged, yet its endpoints' resolved layers differ by 2 — the
original claim fails on reversed links. -/
theorem c1_counterexample :
    (split_long_links
        [({ id := ['A'], segment := some (Sum.inl 2) } : Node),
         { id := ['B'], segment := some (Sum.inl 0) }]
        [{ source := ['A'], target := ['B'] }] none).2 =
      [{ source := ['A'], target := ['B'] }] ∧
    dictGet? (splitLayerDict (split_long_links
        [({ id := ['A'], segment := some (Sum.inl 2) } : Node),
         { id := ['B'], segment := some (Sum.inl 0) }]
        [{ source := ['A'], target := ['B'] }] none).1 none) ['A'] = some 2 ∧
    dictGet? (splitLayerDict (split_long_links
        [({ id := ['A'], segment := some (Sum.inl 2) } : Node),
         { id := ['B'], segment := some (Sum.inl 0) }]
        [{ source := ['A'], target := ['B'] }] none).1 none) ['B'] = some 0 ∧
    1 < ((2 : Int) - 0).natAbs := by
  refine ⟨by decide, by decide, by decide, by decide⟩
